import Mathlib

/-
  Verification development for the pioneer call-graph indexer.

  The C++ sources are shallowly embedded as executable Lean definitions:
  std::unordered_map is an association list (alInsert mirrors operator[]
  assignment: overwrite in place, new keys appended), std::unordered_set is
  a duplicate-free list (setInsert appends when absent), SymbolUID is Nat
  with 0 = INVALID_UID, and the iterative DFS loops of query.cpp are given
  by their structural recursions with an explicit fuel argument standing
  for the loop iteration bound.
-/

namespace Pioneer

/-- Lookup in an association list (model of unordered_map::find). -/
def alLookup {α β : Type} [DecidableEq α] : List (α × β) → α → Option β
  | [], _ => none
  | (k, v) :: rest, key => if k = key then some v else alLookup rest key

/-- Assignment m[k] = v on an association list (model of unordered_map
operator[] followed by assignment): overwrites in place, appends new keys. -/
def alInsert {α β : Type} [DecidableEq α] : List (α × β) → α → β → List (α × β)
  | [], key, val => [(key, val)]
  | (k, v) :: rest, key, val =>
    if k = key then (k, val) :: rest else (k, v) :: alInsert rest key val

/-- Insertion into an unordered_set modelled as a duplicate-free list. -/
def setInsert {α : Type} [DecidableEq α] (s : List α) (x : α) : List α :=
  if x ∈ s then s else s ++ [x]

/-- m[k].insert(x) where m maps keys to unordered_sets. -/
def adjInsert {α : Type} [DecidableEq α] (m : List (α × List α)) (k x : α) :
    List (α × List α) :=
  alInsert m k (setInsert ((alLookup m k).getD []) x)

/-- Membership b in the adjacency set of a. -/
def adjMem {α : Type} [DecidableEq α] (m : List (α × List α)) (a b : α) : Prop :=
  b ∈ ((alLookup m a).getD [])

/-- The keys of an association list. -/
def alKeys {α β : Type} (l : List (α × β)) : List α := l.map Prod.fst

/-- Symbol type classification (types.hpp, enum class SymbolType). -/
inductive SymbolType where
  | Function
  | Variable
  | End
deriving DecidableEq, Repr

/-- static_cast<int>(type) used by the persistence writer. -/
def symbolTypeToInt : SymbolType → Nat
  | SymbolType.Function => 0
  | SymbolType.Variable => 1
  | SymbolType.End => 2

/-- static_cast<SymbolType>(val) used by the persistence reader (only the
values 0, 1, 2 ever occur in a written index). -/
def intToSymbolType : Nat → SymbolType
  | 0 => SymbolType.Function
  | 1 => SymbolType.Variable
  | _ => SymbolType.End

/-- String pool (types.hpp, class StringPool): interned strings in
insertion order; the reverse index is derived from the list. -/
structure StringPool where
  strings : List String
deriving DecidableEq, Repr

/-- Index of a string in the pool, if present (StringPool::find). -/
def poolFind : List String → String → Option Nat
  | [], _ => none
  | s :: rest, t => if s = t then some 0 else (poolFind rest t).map (· + 1)

/-- StringPool::intern - returns existing index or appends. -/
def StringPool.intern (p : StringPool) (s : String) : StringPool × Nat :=
  match poolFind p.strings s with
  | some i => (p, i)
  | none => (⟨p.strings ++ [s]⟩, p.strings.length)

/-- StringPool::get - empty string for out-of-range indices. -/
def StringPool.get (p : StringPool) (i : Nat) : String :=
  p.strings.getD i ""

/-- The cross-reference graph state (types.hpp, struct CallGraph). -/
structure CallGraph where
  symbol_pool : StringPool
  symbol_to_uid : List (String × Nat)
  uid_to_string_idx : List (Nat × Nat)
  symbol_types : List (Nat × SymbolType)
  filepath_pool : StringPool
  filepath_to_uid : List (String × Nat)
  file_uid_to_path_idx : List (Nat × Nat)
  file_to_symbols : List (Nat × List Nat)
  symbol_to_file : List (Nat × Nat)
  next_file_uid : Nat
  call_map : List (Nat × List Nat)
  reverse_call_map : List (Nat × List Nat)
  data_flow_map : List (Nat × List Nat)
  reverse_data_flow_map : List (Nat × List Nat)
  next_uid : Nat
  end_uid : Nat
deriving DecidableEq, Repr

/-- A freshly constructed CallGraph (the default member initializers). -/
def CallGraph.empty : CallGraph :=
  { symbol_pool := ⟨[]⟩
    symbol_to_uid := []
    uid_to_string_idx := []
    symbol_types := []
    filepath_pool := ⟨[]⟩
    filepath_to_uid := []
    file_uid_to_path_idx := []
    file_to_symbols := []
    symbol_to_file := []
    next_file_uid := 1
    call_map := []
    reverse_call_map := []
    data_flow_map := []
    reverse_data_flow_map := []
    next_uid := 1
    end_uid := 0 }

/-- CallGraph::get_or_create_uid (types.hpp): idempotent on the name; on
first insert it assigns next_uid, interns the name and records the type. -/
def CallGraph.get_or_create_uid (g : CallGraph) (name : String) (type : SymbolType) :
    CallGraph × Nat :=
  match alLookup g.symbol_to_uid name with
  | some uid => (g, uid)
  | none =>
    let uid := g.next_uid
    let pi := g.symbol_pool.intern name
    ({ g with
        symbol_pool := pi.1
        symbol_to_uid := alInsert g.symbol_to_uid name uid
        uid_to_string_idx := alInsert g.uid_to_string_idx uid pi.2
        symbol_types := alInsert g.symbol_types uid type
        next_uid := uid + 1 }, uid)

/-- CallGraph::get_uid - 0 (INVALID_UID) on a miss. -/
def CallGraph.get_uid (g : CallGraph) (name : String) : Nat :=
  (alLookup g.symbol_to_uid name).getD 0

/-- CallGraph::get_type - defaults to Function on a miss. -/
def CallGraph.get_type (g : CallGraph) (uid : Nat) : SymbolType :=
  (alLookup g.symbol_types uid).getD SymbolType.Function

/-- CallGraph::is_variable. -/
def CallGraph.is_variable (g : CallGraph) (uid : Nat) : Bool :=
  g.get_type uid = SymbolType.Variable

/-- CallGraph::get_symbol - the interned name, with the end uid pinned to
the literal "END" and the empty string on a miss. -/
def CallGraph.get_symbol (g : CallGraph) (uid : Nat) : String :=
  if uid = g.end_uid then "END"
  else
    match alLookup g.uid_to_string_idx uid with
    | some idx => g.symbol_pool.get idx
    | none => ""

/-- CallGraph::add_call - inserts into both adjacency maps. -/
def CallGraph.add_call (g : CallGraph) (caller callee : Nat) : CallGraph :=
  { g with
      call_map := adjInsert g.call_map caller callee
      reverse_call_map := adjInsert g.reverse_call_map callee caller }

/-- CallGraph::add_data_flow - inserts into both data-flow maps. -/
def CallGraph.add_data_flow (g : CallGraph) (varUid source : Nat) : CallGraph :=
  { g with
      data_flow_map := adjInsert g.data_flow_map varUid source
      reverse_data_flow_map := adjInsert g.reverse_data_flow_map source varUid }

/-- CallGraph::finalize (types.hpp lines 262-287): allocate the END uid,
intern "END", then connect every function symbol with an empty forward
adjacency to END.  The C++ collects the candidate uids into an
unordered_set before the connecting loop; the model folds over the name
table directly, which performs the same insertions because the guard
re-checks emptiness at each step. -/
def CallGraph.finalize (g : CallGraph) : CallGraph :=
  let e := g.next_uid
  let pi := g.symbol_pool.intern "END"
  let g1 : CallGraph :=
    { g with
        next_uid := e + 1
        end_uid := e
        symbol_pool := pi.1
        symbol_to_uid := alInsert g.symbol_to_uid "END" e
        uid_to_string_idx := alInsert g.uid_to_string_idx e pi.2
        symbol_types := alInsert g.symbol_types e SymbolType.End }
  let leaves : List Nat :=
    (g1.symbol_to_uid.map Prod.snd).filter
      (fun uid => decide (uid ≠ e) && decide (g1.get_type uid = SymbolType.Function))
  leaves.foldl
    (fun acc uid =>
      if (alLookup acc.call_map uid).getD [] = [] then acc.add_call uid e else acc)
    g1

/-- The Graph wrapper owning a CallGraph (graph.hpp / graph.cpp). -/
structure Graph where
  call_graph : CallGraph
deriving DecidableEq, Repr

def Graph.empty : Graph := ⟨CallGraph.empty⟩

/-- Graph::add_symbol(name, type) (graph.cpp lines 63-67): get or create
the uid, then unconditionally overwrite the stored type. -/
def Graph.add_symbol (g : Graph) (qualified_name : String) (type : SymbolType) :
    Graph × Nat :=
  let r := g.call_graph.get_or_create_uid qualified_name SymbolType.Function
  (⟨{ r.1 with symbol_types := alInsert r.1.symbol_types r.2 type }⟩, r.2)

/-- Graph::get_or_create_file_uid (graph.cpp lines 81-92). -/
def Graph.get_or_create_file_uid (g : Graph) (filepath : String) : Graph × Nat :=
  match alLookup g.call_graph.filepath_to_uid filepath with
  | some fuid => (g, fuid)
  | none =>
    let fuid := g.call_graph.next_file_uid
    let pi := g.call_graph.filepath_pool.intern filepath
    (⟨{ g.call_graph with
          next_file_uid := fuid + 1
          filepath_pool := pi.1
          filepath_to_uid := alInsert g.call_graph.filepath_to_uid filepath fuid
          file_uid_to_path_idx := alInsert g.call_graph.file_uid_to_path_idx fuid pi.2 }⟩,
      fuid)

/-- Graph::add_symbol(name, filepath, type) (graph.cpp lines 69-79): add
the symbol, then link it to the file: symbol_to_file[uid] = file_uid and
file_to_symbols[file_uid].push_back(uid), both unconditionally. -/
def Graph.add_symbol_file (g : Graph) (qualified_name filepath : String)
    (type : SymbolType) : Graph × Nat :=
  let r := g.add_symbol qualified_name type
  let r2 := r.1.get_or_create_file_uid filepath
  (⟨{ r2.1.call_graph with
        symbol_to_file := alInsert r2.1.call_graph.symbol_to_file r.2 r2.2
        file_to_symbols :=
          alInsert r2.1.call_graph.file_to_symbols r2.2
            (((alLookup r2.1.call_graph.file_to_symbols r2.2).getD []) ++ [r.2]) }⟩,
    r.2)

/-- Graph::add_call on names (graph.cpp lines 109-113). -/
def Graph.add_call (g : Graph) (caller callee : String) : Graph :=
  let r := g.call_graph.get_or_create_uid caller SymbolType.Function
  let r2 := r.1.get_or_create_uid callee SymbolType.Function
  ⟨r2.1.add_call r.2 r2.2⟩

/-- Graph::add_data_flow on names (graph.cpp lines 115-119). -/
def Graph.add_data_flow (g : Graph) (source dest : String) : Graph :=
  let r := g.call_graph.get_or_create_uid source SymbolType.Function
  let r2 := r.1.get_or_create_uid dest SymbolType.Function
  ⟨r2.1.add_data_flow r.2 r2.2⟩

def Graph.finalize (g : Graph) : Graph := ⟨g.call_graph.finalize⟩

def Graph.get_uid (g : Graph) (name : String) : Nat := g.call_graph.get_uid name

def Graph.get_symbol (g : Graph) (uid : Nat) : String := g.call_graph.get_symbol uid

/-- Graph::get_callees - the stored adjacency set, empty on a miss. -/
def Graph.get_callees (g : Graph) (caller : Nat) : List Nat :=
  (alLookup g.call_graph.call_map caller).getD []

/-- Graph::get_callers. -/
def Graph.get_callers (g : Graph) (callee : Nat) : List Nat :=
  (alLookup g.call_graph.reverse_call_map callee).getD []

/-- Graph::get_data_sources. -/
def Graph.get_data_sources (g : Graph) (varUid : Nat) : List Nat :=
  (alLookup g.call_graph.reverse_data_flow_map varUid).getD []

/-- Graph::get_data_sinks. -/
def Graph.get_data_sinks (g : Graph) (source : Nat) : List Nat :=
  (alLookup g.call_graph.data_flow_map source).getD []

/-- Graph::get_file_path. -/
def Graph.get_file_path (g : Graph) (file_uid : Nat) : String :=
  match alLookup g.call_graph.file_uid_to_path_idx file_uid with
  | some idx => g.call_graph.filepath_pool.get idx
  | none => ""

/-- The file-path lookup of a raw CallGraph (same computation as
Graph::get_file_path). -/
def fileGetCG (cg : CallGraph) (fuid : Nat) : String :=
  match alLookup cg.file_uid_to_path_idx fuid with
  | some idx => cg.filepath_pool.get idx
  | none => ""

/-- Graph::get_symbol_file_uid - INVALID_UID (0) on a miss. -/
def Graph.get_symbol_file_uid (g : Graph) (symbol_uid : Nat) : Nat :=
  (alLookup g.call_graph.symbol_to_file symbol_uid).getD 0

def Graph.has_symbol (g : Graph) (name : String) : Bool :=
  (alLookup g.call_graph.symbol_to_uid name).isSome

def Graph.end_uid (g : Graph) : Nat := g.call_graph.end_uid

/- ===================== version.hpp ===================== -/

def INDEX_SCHEMA_MAJOR : Int := 2
def INDEX_SCHEMA_MINOR : Int := 1
def INDEX_SCHEMA_PATCH : Int := 0
def INDEX_SCHEMA_VERSION : String := "2.1.0"
def MIN_COMPAT_SCHEMA_MAJOR : Int := 1
def MIN_COMPAT_SCHEMA_MINOR : Int := 2
def MIN_COMPAT_SCHEMA_PATCH : Int := 0

/-- is_schema_compatible (version.hpp lines 44-57): same major is always
compatible; otherwise majors above the minimum-compatible major are
rejected, and the minimum-compatible major needs at least the
minimum-compatible minor. -/
def is_schema_compatible (major minor _patch : Int) : Bool :=
  if major = INDEX_SCHEMA_MAJOR then true
  else if major > MIN_COMPAT_SCHEMA_MAJOR then false
  else if major = MIN_COMPAT_SCHEMA_MAJOR ∧ minor ≥ MIN_COMPAT_SCHEMA_MINOR then true
  else false

/-- Characters accepted as whitespace by strtol / std::stoi. -/
def isSpaceChar (c : Char) : Bool :=
  c = ' ' || c = '\t' || c = '\n' || c = '\x0b' || c = '\x0c' || c = '\r'

/-- Value of the leading digit run, none when there is no digit
(std::stoi throws invalid_argument in that case). -/
def leadingDigitsVal (l : List Char) : Option Nat :=
  let ds := l.takeWhile Char.isDigit
  if ds.isEmpty then none
  else some (ds.foldl (fun a c => a * 10 + (c.toNat - 48)) 0)

/-- Model of std::stoi: skip whitespace, optional sign, then a mandatory
digit run; trailing non-digits are ignored.  (Overflow, which makes the
C++ throw out_of_range, is not modelled; no claim exercises it.) -/
def stoiModel (l : List Char) : Option Int :=
  let l1 := l.dropWhile isSpaceChar
  match l1 with
  | '-' :: rest => (leadingDigitsVal rest).map (fun n => -(n : Int))
  | '+' :: rest => (leadingDigitsVal rest).map (fun n => (n : Int))
  | _ => (leadingDigitsVal l1).map (fun n => (n : Int))

/-- First index of a character in a list, if any (string::find). -/
def charFind : List Char → Char → Option Nat
  | [], _ => none
  | c :: rest, target =>
    if c = target then some 0 else (charFind rest target).map (· + 1)

/-- parse_version (version.hpp lines 60-75): split at the first two dots
and run stoi on the three pieces; false when a dot is missing or a piece
has no leading integer. -/
def parse_version (version : String) : Option (Int × Int × Int) :=
  let l := version.data
  match charFind l '.' with
  | none => none
  | some pos1 =>
    let after1 := l.drop (pos1 + 1)
    match charFind after1 '.' with
    | none => none
    | some pos2 =>
      match stoiModel (l.take pos1), stoiModel (after1.take pos2),
            stoiModel (after1.drop (pos2 + 1)) with
      | some major, some minor, some patch => some (major, minor, patch)
      | _, _, _ => none

/- ===================== persistence (graph.cpp) ===================== -/

/-- The content of a persisted index file as the streaming writer
Graph::save (graph.cpp lines 162-311) emits it: each section is the
iteration sequence of the corresponding map. The path_trie section is
never loaded by any mode and is left out of the model. -/
structure SaveFile where
  version : String
  end_uid : Nat
  uids : List (String × Nat)
  symbol_types : List (Nat × Nat)
  call_mapping : List (Nat × List Nat)
  data_flow : List (Nat × List Nat)
  file_paths : List (Nat × String)
  file_symbols : List (Nat × List Nat)
  symbol_files : List (Nat × Nat)
deriving DecidableEq, Repr

/-- Graph::save: the metadata carries the writer schema version and
end_uid; every other section serializes the map it names. -/
def Graph.save (g : Graph) : SaveFile :=
  { version := INDEX_SCHEMA_VERSION
    end_uid := g.call_graph.end_uid
    uids := g.call_graph.symbol_to_uid
    symbol_types := g.call_graph.symbol_types.map (fun p => (p.1, symbolTypeToInt p.2))
    call_mapping := g.call_graph.call_map
    data_flow := g.call_graph.data_flow_map
    file_paths :=
      g.call_graph.file_uid_to_path_idx.map
        (fun p => (p.1, g.call_graph.filepath_pool.get p.2))
    file_symbols := g.call_graph.file_to_symbols
    symbol_files := g.call_graph.symbol_to_file }

/-- Effect of the UIDs section on the loading graph (GraphSaxHandler's
Section::UIDs case of handle_number, graph.cpp lines 571-581). -/
def loadUids (entries : List (String × Nat)) (g : CallGraph) : CallGraph :=
  entries.foldl
    (fun acc p =>
      let pi := acc.symbol_pool.intern p.1
      { acc with
          symbol_pool := pi.1
          symbol_to_uid := alInsert acc.symbol_to_uid p.1 p.2
          uid_to_string_idx := alInsert acc.uid_to_string_idx p.2 pi.2
          next_uid := if p.2 ≥ acc.next_uid then p.2 + 1 else acc.next_uid })
    g

/-- Effect of the symbol_types section (graph.cpp lines 582-585). -/
def loadTypes (entries : List (Nat × Nat)) (g : CallGraph) : CallGraph :=
  entries.foldl
    (fun acc p => { acc with symbol_types := alInsert acc.symbol_types p.1 (intToSymbolType p.2) })
    g

/-- Effect of the call_mapping section (graph.cpp lines 674-680): each
callee array inserts forward and reverse edges. -/
def loadCallMapping (entries : List (Nat × List Nat)) (g : CallGraph) : CallGraph :=
  entries.foldl
    (fun acc p =>
      p.2.foldl
        (fun acc2 callee =>
          { acc2 with
              call_map := adjInsert acc2.call_map p.1 callee
              reverse_call_map := adjInsert acc2.reverse_call_map callee p.1 })
        acc)
    g

/-- Effect of the data_flow section (graph.cpp lines 681-687). -/
def loadDataFlow (entries : List (Nat × List Nat)) (g : CallGraph) : CallGraph :=
  entries.foldl
    (fun acc p =>
      p.2.foldl
        (fun acc2 dest =>
          { acc2 with
              data_flow_map := adjInsert acc2.data_flow_map p.1 dest
              reverse_data_flow_map := adjInsert acc2.reverse_data_flow_map dest p.1 })
        acc)
    g

/-- Effect of the file_paths section (graph.cpp lines 606-614). -/
def loadFilePaths (entries : List (Nat × String)) (g : CallGraph) : CallGraph :=
  entries.foldl
    (fun acc p =>
      let pi := acc.filepath_pool.intern p.2
      { acc with
          filepath_pool := pi.1
          file_uid_to_path_idx := alInsert acc.file_uid_to_path_idx p.1 pi.2
          filepath_to_uid := alInsert acc.filepath_to_uid p.2 p.1
          next_file_uid := if p.1 ≥ acc.next_file_uid then p.1 + 1 else acc.next_file_uid })
    g

/-- Effect of the file_symbols section (graph.cpp lines 688-691). -/
def loadFileSymbols (entries : List (Nat × List Nat)) (g : CallGraph) : CallGraph :=
  entries.foldl
    (fun acc p => { acc with file_to_symbols := alInsert acc.file_to_symbols p.1 p.2 })
    g

/-- Effect of the symbol_files section (graph.cpp lines 586-589). -/
def loadSymbolFiles (entries : List (Nat × Nat)) (g : CallGraph) : CallGraph :=
  entries.foldl
    (fun acc p => { acc with symbol_to_file := alInsert acc.symbol_to_file p.1 p.2 })
    g

/-- All sections of a Full-mode load applied in file order (the SAX
handler sees metadata first, then symbol_types, call_mapping, data_flow,
file_paths, file_symbols, symbol_files; path_trie is skipped). -/
def loadSections (f : SaveFile) : Graph :=
  let g0 := { CallGraph.empty with end_uid := f.end_uid }
  let g1 := loadUids f.uids g0
  let g2 := loadTypes f.symbol_types g1
  let g3 := loadCallMapping f.call_mapping g2
  let g4 := loadDataFlow f.data_flow g3
  let g5 := loadFilePaths f.file_paths g4
  let g6 := loadFileSymbols f.file_symbols g5
  let g7 := loadSymbolFiles f.symbol_files g6
  ⟨g7⟩

/-- Graph::load(filepath, LoadMode::Full) through GraphSaxHandler: the
version string of the metadata fires the schema gate (graph.cpp lines
615-624) - note the gate runs only when parse_version succeeds - and the
remaining events populate the graph. -/
def Graph.loadFull (f : SaveFile) : Except String Graph :=
  match parse_version f.version with
  | some v =>
    if is_schema_compatible v.1 v.2.1 v.2.2 then Except.ok (loadSections f)
    else
      Except.error
        ("Index file version " ++ f.version ++ " is not compatible. Please re-index.")
  | none => Except.ok (loadSections f)

/-- The version gate of the DOM loader Graph::from_json (graph.cpp lines
394-408): same guard structure, with a longer message. -/
def from_json_version_gate (version : String) : Except String Unit :=
  match parse_version version with
  | some v =>
    if is_schema_compatible v.1 v.2.1 v.2.2 then Except.ok ()
    else
      Except.error
        ("Index file version " ++ version ++
          " is not compatible with this version of pioneer (requires >= 1.2.0). Please re-index.")
  | none => Except.ok ()

/- ===================== query engine (query.cpp) ===================== -/

/-
  The three path enumerators of query.cpp share one iterative scheme: an
  explicit stack of (node, iterator-into-adjacency) frames, an in_path
  set equal to the current path, emission with immediate callback when a
  stop node is reached (returning early when the callback says stop), and
  per-candidate skipping of nodes already on the path (and, for the
  bidirectional variant, of nodes outside can_reach_end).  dfsVisit/
  dfsList below are that loop written as the recursion it computes: a
  frame for node n whose pending candidates are l corresponds to
  dfsList on l, and pushing a frame corresponds to dfsVisit.  The fuel
  argument bounds the stack depth; every run of the C++ loop is a run
  with sufficiently large fuel (theorem for claim C5).

  succ is the adjacency used (get_callees, or get_callers for the
  backward walk), stopAt the emission condition, keep the pruning filter,
  and cb the callback (applied here to uid paths; the wrappers compose it
  with the symbol-name conversion the C++ does at emission time).
  The returned Bool is "no callback requested a stop".
-/
/-- The sibling loop of one stack frame, generic in the visit function
used for pushed nodes. -/
def dfsListAux (keep : Nat → Bool) (visit : Nat → List Nat → List (List Nat) × Bool) :
    List Nat → List Nat → List (List Nat) × Bool
  | [], _ => ([], true)
  | c :: cs, path =>
    if c ∈ path ∨ keep c = false then dfsListAux keep visit cs path
    else
      match visit c (path ++ [c]) with
      | (out, true) =>
        let r2 := dfsListAux keep visit cs path
        (out ++ r2.1, r2.2)
      | (out, false) => (out, false)

def dfsVisit (succ : Nat → List Nat) (stopAt : Nat → Bool) (keep : Nat → Bool)
    (cb : List Nat → Bool) : Nat → Nat → List Nat → List (List Nat) × Bool
  | 0, _, _ => ([], true)
  | fuel + 1, node, path =>
    if stopAt node then ([path], cb path)
    else dfsListAux keep (dfsVisit succ stopAt keep cb fuel) (succ node) path

/-- The frame loop with the visit budget made explicit. -/
def dfsList (succ : Nat → List Nat) (stopAt : Nat → Bool) (keep : Nat → Bool)
    (cb : List Nat → Bool) (fuel : Nat) : List Nat → List Nat → List (List Nat) × Bool :=
  dfsListAux keep (dfsVisit succ stopAt keep cb fuel)

/-- Phase 1 of dfs_bidirectional (query.cpp lines 320-342): BFS over the
reverse call graph from end, collecting every node that can reach end.
The C++ queue with a moving head index is the (queue, visited) recursion
below; fuel bounds the number of dequeues. -/
def bfsLoop (callers : Nat → List Nat) : Nat → List Nat → List Nat → List Nat
  | 0, _, visited => visited
  | _ + 1, [], visited => visited
  | fuel + 1, node :: queue, visited =>
    let fresh := (callers node).filter (fun c => decide (c ∉ visited))
    bfsLoop callers fuel (queue ++ fresh) (visited ++ fresh)

/-- Fuel that lets every loop of the query engine run to completion on a
graph whose uids are below next_uid (see the claim C5 theorem). -/
def Graph.dfsFuel (g : Graph) : Nat := g.call_graph.next_uid + 1

/-- QueryEngine::dfs_forward (query.cpp lines 161-233) with explicit
fuel: forward DFS emitting every path from start to end; the callback
receives symbol names. -/
def Graph.dfs_forwardFuel (g : Graph) (cb : List String → Bool) (fuel start endU : Nat) :
    List (List Nat) :=
  (dfsVisit g.get_callees (fun n => decide (n = endU)) (fun _ => true)
    (fun p => cb (p.map g.get_symbol)) fuel start [start]).1

def Graph.dfs_forward (g : Graph) (cb : List String → Bool) (start endU : Nat) :
    List (List Nat) :=
  g.dfs_forwardFuel cb g.dfsFuel start endU

/-- QueryEngine::dfs_backward (query.cpp lines 236-312) with explicit
fuel: DFS over the caller adjacency from start, emitting the reversed
path at every root (and at end when end is not INVALID_UID).  The
emitted uid paths here are the reversed traversal paths, exactly what
the C++ hands to the callback (as names). -/
def Graph.dfs_backwardFuel (g : Graph) (cb : List String → Bool) (fuel start endU : Nat) :
    List (List Nat) :=
  ((dfsVisit g.get_callers
      (fun n => decide ((g.get_callers n).isEmpty ∨ (endU ≠ 0 ∧ n = endU)))
      (fun _ => true)
      (fun p => cb (p.reverse.map g.get_symbol)) fuel start [start]).1).map List.reverse

def Graph.dfs_backward (g : Graph) (cb : List String → Bool) (start endU : Nat) :
    List (List Nat) :=
  g.dfs_backwardFuel cb g.dfsFuel start endU

/-- Phase 1 result of QueryEngine::dfs_bidirectional: the set of nodes
from which end is reachable in the call graph, computed by reverse BFS. -/
def Graph.canReachEndFuel (g : Graph) (fuel endU : Nat) : List Nat :=
  bfsLoop g.get_callers fuel [endU] [endU]

/-- QueryEngine::dfs_bidirectional (query.cpp lines 316-424) with
explicit fuel: reverse BFS from end, early return when start cannot
reach end, then forward DFS pruned to can_reach_end. -/
def Graph.dfs_bidirectionalFuel (g : Graph) (cb : List String → Bool) (fuel start endU : Nat) :
    List (List Nat) :=
  let can_reach_end := g.canReachEndFuel fuel endU
  if start ∉ can_reach_end then []
  else
    (dfsVisit g.get_callees (fun n => decide (n = endU))
      (fun c => decide (c ∈ can_reach_end))
      (fun p => cb (p.map g.get_symbol)) fuel start [start]).1

def Graph.dfs_bidirectional (g : Graph) (cb : List String → Bool) (start endU : Nat) :
    List (List Nat) :=
  g.dfs_bidirectionalFuel cb g.dfsFuel start endU

/-- QueryEngine::backtrace (query.cpp lines 137-146): resolve the symbol
and run dfs_backward with INVALID_UID as end; error when missing. -/
def Graph.backtrace (g : Graph) (cb : List String → Bool) (symbol : String) :
    Except String (List (List String)) :=
  let target_uid := g.get_uid symbol
  if target_uid = 0 then Except.error ("Error: Symbol not found: " ++ symbol)
  else Except.ok ((g.dfs_backward cb target_uid 0).map (fun p => p.map g.get_symbol))

/-- QueryEngine::forward_trace (query.cpp lines 148-158). -/
def Graph.forward_trace (g : Graph) (cb : List String → Bool) (symbol : String) :
    Except String (List (List String)) :=
  let start_uid := g.get_uid symbol
  if start_uid = 0 then Except.error ("Error: Symbol not found: " ++ symbol)
  else Except.ok ((g.dfs_forward cb start_uid g.end_uid).map (fun p => p.map g.get_symbol))

/-- QueryEngine::find_paths (query.cpp lines 102-135): dispatch on the
sentinels in source order - the START check precedes the both-sentinels
check, making the latter unreachable - then resolve both uids and run the
bidirectional search.  Errors model the cerr diagnostics followed by
return. -/
def Graph.find_paths (g : Graph) (cb : List String → Bool) (start endS : String) :
    Except String (List (List String)) :=
  if start = "START" then g.backtrace cb endS
  else if endS = "END" then g.forward_trace cb start
  else if start = "START" ∧ endS = "END" then
    Except.error
      "Error: Cannot use both START and END - at least one must be a specific symbol"
  else
    let start_uid := g.get_uid start
    let end_uid := g.get_uid endS
    if start_uid = 0 then Except.error ("Error: Symbol not found: " ++ start)
    else if end_uid = 0 then Except.error ("Error: Symbol not found: " ++ endS)
    else
      Except.ok ((g.dfs_bidirectional cb start_uid end_uid).map (fun p => p.map g.get_symbol))

/- ===================== indexer phase 3 (Indexer::index) ===================== -/

/-- Tail after the rightmost occurrence of the two-character separator
c1 c2, none when it does not occur; matches string::rfind semantics
(overlapping occurrences included, rightmost wins). -/
def afterLastPair (c1 c2 : Char) : List Char → Option (List Char)
  | [] => none
  | [_] => none
  | x :: y :: rest =>
    match afterLastPair c1 c2 (y :: rest) with
    | some t => some t
    | none => if x = c1 ∧ y = c2 then some rest else none

/-- Tail after the rightmost occurrence of a single character. -/
def afterLastChar (c : Char) : List Char → Option (List Char)
  | [] => none
  | x :: rest =>
    match afterLastChar c rest with
    | some t => some t
    | none => if x = c then some rest else none

/-- The short name the indexer records for a FunctionRecord
(Indexer::index, the batch_functions loop): rfind("::") and take the
substring after it when found - a dot is not treated as a separator
here. -/
def functionShortName (qualified : String) : String :=
  match afterLastPair ':' ':' qualified.data with
  | some t => String.mk t
  | none => qualified

/-- The short name derived from a CallRecord callee (Indexer::index,
the batch_calls loop): strip after the last "::", then after the last
dot of the result. -/
def calleeShortName (callee : String) : String :=
  let v1 := match afterLastPair ':' ':' callee.data with
            | some t => t
            | none => callee.data
  let v2 := match afterLastChar '.' v1 with
            | some t => t
            | none => v1
  String.mk v2

/-- The short-name lookup population over the function records of a
batch (Indexer::index): record short_name -> qualified_name, first
writer wins. -/
def recordShortNames (funcs : List String) (m : List (String × String)) :
    List (String × String) :=
  funcs.foldl
    (fun acc q =>
      match alLookup acc (functionShortName q) with
      | some _ => acc
      | none => alInsert acc (functionShortName q) q)
    m

/- ===================== concrete graphs for the witnesses ===================== -/

/-- A finalized graph with a single function f: finalize adds END and
the leaf edge f -> END (uids: f = 1, END = 2). -/
def exGraphOne : Graph :=
  ((Graph.empty.add_symbol "f" SymbolType.Function).1).finalize

/-- The mutual-recursion graph of scenario S4: f calls g and g calls f
(uids: f = 1, g = 2, END = 3; neither is a leaf). -/
def exGraphCyc : Graph :=
  let g1 := (Graph.empty.add_symbol_file "c.c::f" "c.c" SymbolType.Function).1
  let g2 := (g1.add_symbol_file "c.c::g" "c.c" SymbolType.Function).1
  ((g2.add_call "c.c::f" "c.c::g").add_call "c.c::g" "c.c::f").finalize

/-- A small graph exercising files, types and data flow for the
round-trip witness: function a.c::a calls b.c::b, variable v is fed by
b.c::b. -/
def exGraphRt : Graph :=
  let g1 := (Graph.empty.add_symbol_file "a.c::a" "a.c" SymbolType.Function).1
  let g2 := (g1.add_symbol_file "b.c::b" "b.c" SymbolType.Function).1
  let g3 := (g2.add_symbol_file "v" "a.c" SymbolType.Variable).1
  ((g3.add_call "a.c::a" "b.c::b").add_data_flow "b.c::b" "v").finalize

/-- The always-continue callback. -/
def cbTrue : List String → Bool := fun _ => true

/- ============ auxiliary notions used by the theorems ============ -/

/-- Keys of an association list are pairwise distinct (always true of an
unordered_map iteration sequence). -/
def keysNodup {α β : Type} (l : List (α × β)) : Prop := (l.map Prod.fst).Nodup

/-- One call edge step: b is a direct callee of a. -/
def Graph.calleeStep (g : Graph) (a b : Nat) : Prop := b ∈ g.get_callees a

/-- One reverse step: b is a direct caller of a. -/
def Graph.callerStep (g : Graph) (a b : Nat) : Prop := b ∈ g.get_callers a

/-- v can reach endU along call edges. -/
def Graph.ReachesEnd (g : Graph) (v endU : Nat) : Prop :=
  Relation.ReflTransGen g.calleeStep v endU

/-- Every caller uid and callee uid in the call maps is below next_uid
(invariant I5 of the spec, maintained by every graph mutation). -/
def Graph.callEdgesBounded (g : Graph) : Prop :=
  (∀ p ∈ g.call_graph.call_map, p.1 < g.call_graph.next_uid ∧
    ∀ c ∈ p.2, c < g.call_graph.next_uid) ∧
  (∀ p ∈ g.call_graph.reverse_call_map, p.1 < g.call_graph.next_uid ∧
    ∀ c ∈ p.2, c < g.call_graph.next_uid)

/-- Adjacency sets hold no duplicates (unordered_set iteration). -/
def Graph.callAdjNodup (g : Graph) : Prop :=
  (∀ p ∈ g.call_graph.call_map, p.2.Nodup) ∧
  (∀ p ∈ g.call_graph.reverse_call_map, p.2.Nodup)

/-- The forward and reverse call maps describe the same edge set
(invariant I2, maintained by add_call inserting into both). -/
def Graph.callConsistent (g : Graph) : Prop :=
  (∀ p ∈ g.call_graph.call_map, ∀ b ∈ p.2, p.1 ∈ g.get_callers b) ∧
  (∀ p ∈ g.call_graph.reverse_call_map, ∀ a ∈ p.2, p.1 ∈ g.get_callees a)

/-- The data-flow maps describe the same edge set (invariant I2 for
data-flow, maintained by add_data_flow). -/
def Graph.dataConsistent (g : Graph) : Prop :=
  (∀ p ∈ g.call_graph.data_flow_map, ∀ b ∈ p.2, p.1 ∈ g.get_data_sources b) ∧
  (∀ p ∈ g.call_graph.reverse_data_flow_map, ∀ a ∈ p.2, p.1 ∈ g.get_data_sinks a)

instance {α β : Type} [DecidableEq α] (l : List (α × β)) : Decidable (keysNodup l) := by
  unfold keysNodup
  infer_instance

instance (g : Graph) : Decidable g.callEdgesBounded := by
  unfold Graph.callEdgesBounded
  infer_instance

instance (g : Graph) : Decidable g.callAdjNodup := by
  unfold Graph.callAdjNodup
  infer_instance

instance (g : Graph) : Decidable g.callConsistent := by
  unfold Graph.callConsistent
  infer_instance

instance (g : Graph) : Decidable g.dataConsistent := by
  unfold Graph.dataConsistent
  infer_instance

/-- Rebuild an association list by replaying its entries as inserts. -/
def rebuildAL {α β : Type} [DecidableEq α] (e : List (α × β)) (m : List (α × β)) :
    List (α × β) :=
  e.foldl (fun acc p => alInsert acc p.1 p.2) m

/-- Replay a list of directed edges as adjacency-set inserts. -/
def rebuildAdj {α : Type} [DecidableEq α] (pairs : List (α × α)) (m : List (α × List α)) :
    List (α × List α) :=
  pairs.foldl (fun acc q => adjInsert acc q.1 q.2) m

/-- The directed edges enumerated by a serialized adjacency map. -/
def edgePairs {α : Type} (e : List (α × List α)) : List (α × α) :=
  e.flatMap (fun p => p.2.map (fun b => (p.1, b)))

/- ============ concrete inputs used by witnesses and counterexamples ============ -/

/-- The build-time graph of exGraphRt before finalization. -/
def exGraphRtPre : Graph :=
  let g1 := (Graph.empty.add_symbol_file "a.c::a" "a.c" SymbolType.Function).1
  let g2 := (g1.add_symbol_file "b.c::b" "b.c" SymbolType.Function).1
  let g3 := (g2.add_symbol_file "v" "a.c" SymbolType.Variable).1
  (g3.add_call "a.c::a" "b.c::b").add_data_flow "b.c::b" "v"

/-- Graph after attaching symbol f to file a.c. -/
def c6graph1 : Graph := (Graph.empty.add_symbol_file "f" "a.c" SymbolType.Function).1

/-- The same graph after a repeated add_symbol for f with a different
path b.c. -/
def c6graph2 : Graph := (c6graph1.add_symbol_file "f" "b.c" SymbolType.Function).1

/-- An index file whose version string has no dot at all, hence fails
parse_version. -/
def c10file : SaveFile := { exGraphRt.save with version := "abc" }

/-- An index file carrying schema version 1.5.0: its major differs from
the reader major 2 yet it is at or above the minimum compatible 1.2. -/
def c7file : SaveFile := { exGraphRt.save with version := "1.5.0" }

/-- An index file carrying schema version 0.9.0 (scenario S6). -/
def c7fileOld : SaveFile := { exGraphRt.save with version := "0.9.0" }

/- ===================== basic lemmas about the container models ===================== -/

theorem alLookup_alInsert {α β : Type} [DecidableEq α] (m : List (α × β)) (k : α) (v : β)
    (k2 : α) :
    alLookup (alInsert m k v) k2 = if k = k2 then some v else alLookup m k2 := by
  induction m with
  | nil => simp [alInsert, alLookup]
  | cons p rest ih =>
    obtain ⟨k0, v0⟩ := p
    by_cases h0 : k0 = k
    · subst h0
      by_cases h2 : k0 = k2 <;> simp [alInsert, alLookup, h2]
    · by_cases h2 : k0 = k2
      · subst h2
        have hne : ¬ k = k0 := fun h => h0 h.symm
        simp [alInsert, alLookup, h0, hne]
      · simp [alInsert, alLookup, h0, h2, ih]

theorem alLookup_mem {α β : Type} [DecidableEq α] {l : List (α × β)} {k : α} {v : β}
    (h : alLookup l k = some v) : (k, v) ∈ l := by
  induction l with
  | nil => simp [alLookup] at h
  | cons p rest ih =>
    obtain ⟨k0, v0⟩ := p
    by_cases h0 : k0 = k
    · subst h0
      simp [alLookup] at h
      simp [h]
    · simp [alLookup, h0] at h
      exact List.mem_cons_of_mem _ (ih h)

theorem alLookup_eq_none {α β : Type} [DecidableEq α] {l : List (α × β)} {k : α} :
    alLookup l k = none ↔ k ∉ l.map Prod.fst := by
  induction l with
  | nil => simp [alLookup]
  | cons p rest ih =>
    obtain ⟨k0, v0⟩ := p
    by_cases h0 : k0 = k
    · subst h0
      simp [alLookup]
    · have h0' : ¬ k = k0 := fun h => h0 h.symm
      simp [alLookup, h0, h0', ih]

theorem mem_alLookup {α β : Type} [DecidableEq α] {l : List (α × β)} {k : α} {v : β}
    (hnd : keysNodup l) (h : (k, v) ∈ l) : alLookup l k = some v := by
  induction l with
  | nil => simp at h
  | cons p rest ih =>
    obtain ⟨k0, v0⟩ := p
    rcases List.mem_cons.mp h with h1 | h1
    · obtain ⟨h1a, h1b⟩ := Prod.mk.injEq .. ▸ h1
      simp [alLookup, h1a.symm, h1b]
    · have hk : k0 ≠ k := by
        intro he
        subst he
        have : k0 ∈ rest.map Prod.fst := List.mem_map.mpr ⟨(k0, v), h1, rfl⟩
        exact (List.nodup_cons.mp hnd).1 this
      have hnd2 : keysNodup rest := (List.nodup_cons.mp hnd).2
      simp [alLookup, hk, ih hnd2 h1]

theorem mem_setInsert {α : Type} [DecidableEq α] (s : List α) (y x : α) :
    x ∈ setInsert s y ↔ x = y ∨ x ∈ s := by
  unfold setInsert
  by_cases h : y ∈ s
  · simp [h]
    intro he
    subst he
    exact h
  · simp [h, or_comm]

theorem nodup_setInsert {α : Type} [DecidableEq α] {s : List α} (y : α) (h : s.Nodup) :
    (setInsert s y).Nodup := by
  unfold setInsert
  by_cases hy : y ∈ s
  · simpa [hy]
  · simp [hy, List.nodup_append, h]

theorem adjMem_adjInsert {α : Type} [DecidableEq α] (m : List (α × List α)) (k x a b : α) :
    adjMem (adjInsert m k x) a b ↔ (a = k ∧ b = x) ∨ adjMem m a b := by
  unfold adjMem adjInsert
  rw [alLookup_alInsert]
  by_cases h : k = a
  · subst h
    simp [mem_setInsert]
  · have h' : ¬ a = k := fun hh => h hh.symm
    simp [h, h']

theorem adjMem_rebuildAdj {α : Type} [DecidableEq α] (pairs : List (α × α))
    (m : List (α × List α)) (a b : α) :
    adjMem (rebuildAdj pairs m) a b ↔ (a, b) ∈ pairs ∨ adjMem m a b := by
  induction pairs generalizing m with
  | nil => simp [rebuildAdj]
  | cons q rest ih =>
    obtain ⟨qa, qb⟩ := q
    show adjMem (rebuildAdj rest (adjInsert m qa qb)) a b ↔ _
    rw [ih, adjMem_adjInsert]
    simp only [List.mem_cons, Prod.mk.injEq]
    tauto

theorem mem_edgePairs {α : Type} (e : List (α × List α)) (a b : α) :
    (a, b) ∈ edgePairs e ↔ ∃ l, (a, l) ∈ e ∧ b ∈ l := by
  unfold edgePairs
  simp only [List.mem_flatMap, List.mem_map]
  constructor
  · rintro ⟨p, hp, c, hc, he⟩
    obtain ⟨h1, h2⟩ := Prod.mk.injEq .. ▸ he
    exact ⟨p.2, by simpa [← h1] using hp, h2 ▸ hc⟩
  · rintro ⟨l, hl, hb⟩
    exact ⟨(a, l), hl, b, hb, rfl⟩

theorem edgePairs_adjMem {α : Type} [DecidableEq α] {e : List (α × List α)}
    (hnd : keysNodup e) (a b : α) : (a, b) ∈ edgePairs e ↔ adjMem e a b := by
  rw [mem_edgePairs]
  constructor
  · rintro ⟨l, hl, hb⟩
    have := mem_alLookup hnd hl
    simp [adjMem, this, hb]
  · intro h
    unfold adjMem at h
    cases hx : alLookup e a with
    | none => simp [hx] at h
    | some l => exact ⟨l, alLookup_mem hx, by simpa [hx] using h⟩

theorem alLookup_rebuildAL {α β : Type} [DecidableEq α] (e : List (α × β)) (m : List (α × β))
    (k : α) (hnd : keysNodup e) :
    alLookup (rebuildAL e m) k =
      match alLookup e k with
      | some v => some v
      | none => alLookup m k := by
  induction e generalizing m with
  | nil => simp [rebuildAL, alLookup]
  | cons p rest ih =>
    obtain ⟨k0, v0⟩ := p
    have hnd2 : keysNodup rest := (List.nodup_cons.mp hnd).2
    have hk0 : k0 ∉ rest.map Prod.fst := (List.nodup_cons.mp hnd).1
    show alLookup (rebuildAL rest (alInsert m k0 v0)) k = _
    rw [ih _ hnd2]
    by_cases h : k0 = k
    · subst h
      have : alLookup rest k0 = none := alLookup_eq_none.mpr hk0
      simp [alLookup, this, alLookup_alInsert]
    · simp [alLookup, h, alLookup_alInsert]

/- ===================== DFS structure lemmas ===================== -/

/-- The successor relation of an adjacency function. -/
def stepRel (succ : Nat → List Nat) (a b : Nat) : Prop := b ∈ succ a

section DfsLemmas

variable (succ : Nat → List Nat) (stopAt : Nat → Bool) (keep : Nat → Bool)
variable (cb : List Nat → Bool)

theorem dfsVisit_zero (node : Nat) (path : List Nat) :
    dfsVisit succ stopAt keep cb 0 node path = ([], true) := rfl

theorem dfsVisit_succ (fuel node : Nat) (path : List Nat) :
    dfsVisit succ stopAt keep cb (fuel + 1) node path =
      if stopAt node then ([path], cb path)
      else dfsList succ stopAt keep cb fuel (succ node) path := rfl

theorem dfsList_nil (fuel : Nat) (path : List Nat) :
    dfsList succ stopAt keep cb fuel [] path = ([], true) := rfl

theorem dfsList_cons (fuel c : Nat) (cs path : List Nat) :
    dfsList succ stopAt keep cb fuel (c :: cs) path =
      if c ∈ path ∨ keep c = false then dfsList succ stopAt keep cb fuel cs path
      else
        match dfsVisit succ stopAt keep cb fuel c (path ++ [c]) with
        | (out, true) =>
          let r2 := dfsList succ stopAt keep cb fuel cs path
          (out ++ r2.1, r2.2)
        | (out, false) => (out, false) := rfl

theorem dfsList_zero :
    ∀ (l path : List Nat), dfsList succ stopAt keep cb 0 l path = ([], true) := by
  intro l
  induction l with
  | nil => intro path; simp [dfsList_nil, dfsList_cons]
  | cons c cs ih =>
    intro path
    by_cases h : c ∈ path ∨ keep c = false
    · simp only [dfsList_nil, dfsList_cons, if_pos h]
      exact ih path
    · simp [dfsList_nil, dfsList_cons, if_neg h, dfsVisit_zero, dfsVisit_succ, ih path]

/-- Every emitted path extends the path at entry; paths produced while
iterating a candidate list additionally pass through one of its
members. -/
theorem dfs_shape :
    ∀ fuel : Nat,
      (∀ node path p, p ∈ (dfsVisit succ stopAt keep cb fuel node path).1 →
        ∃ t, p = path ++ t) ∧
      (∀ l path p, p ∈ (dfsList succ stopAt keep cb fuel l path).1 →
        ∃ c t, c ∈ l ∧ p = path ++ c :: t) := by
  intro fuel
  induction fuel with
  | zero =>
    constructor
    · intro node path p hp
      simp [dfsVisit_zero, dfsVisit_succ] at hp
    · intro l path p hp
      rw [dfsList_zero] at hp
      simp at hp
  | succ fuel ih =>
    have hvisit : ∀ node path p, p ∈ (dfsVisit succ stopAt keep cb (fuel + 1) node path).1 →
        ∃ t, p = path ++ t := by
      intro node path p hp
      by_cases hstop : stopAt node = true
      · simp only [dfsVisit_zero, dfsVisit_succ, if_pos hstop] at hp
        simp at hp
        exact ⟨[], by simp [hp]⟩
      · simp only [dfsVisit_zero, dfsVisit_succ, if_neg hstop] at hp
        obtain ⟨c, t, _, ht⟩ := ih.2 (succ node) path p hp
        exact ⟨c :: t, ht⟩
    refine ⟨hvisit, ?_⟩
    intro l
    induction l with
    | nil =>
      intro path p hp
      simp [dfsList_nil, dfsList_cons] at hp
    | cons c cs ihl =>
      intro path p hp
      by_cases hskip : c ∈ path ∨ keep c = false
      · simp only [dfsList_nil, dfsList_cons, if_pos hskip] at hp
        obtain ⟨c2, t, hc2, ht⟩ := ihl path p hp
        exact ⟨c2, t, List.mem_cons_of_mem _ hc2, ht⟩
      · simp only [dfsList_nil, dfsList_cons, if_neg hskip] at hp
        rcases hr : dfsVisit succ stopAt keep cb (fuel + 1) c (path ++ [c]) with ⟨out, cont⟩
        rw [hr] at hp
        cases cont with
        | true =>
          simp at hp
          rcases hp with hp | hp
          · obtain ⟨t, ht⟩ := hvisit c (path ++ [c]) p (by rw [hr]; exact hp)
            exact ⟨c, t, List.mem_cons_self c cs, by simpa using ht⟩
          · obtain ⟨c2, t, hc2, ht⟩ := ihl path p hp
            exact ⟨c2, t, List.mem_cons_of_mem _ hc2, ht⟩
        | false =>
          simp at hp
          obtain ⟨t, ht⟩ := hvisit c (path ++ [c]) p (by rw [hr]; exact hp)
          exact ⟨c, t, List.mem_cons_self c cs, by simpa using ht⟩

/-- Every emitted path is duplicate-free, is a chain of the successor
relation, and ends at a node satisfying the emission condition -
provided the entry path already satisfies these invariants. -/
theorem dfs_invariants :
    ∀ fuel : Nat,
      (∀ node path p, path.Nodup → List.Chain' (stepRel succ) path →
        path.getLast? = some node →
        p ∈ (dfsVisit succ stopAt keep cb fuel node path).1 →
        p.Nodup ∧ List.Chain' (stepRel succ) p ∧
          ∃ x, p.getLast? = some x ∧ stopAt x = true) ∧
      (∀ l path p, path.Nodup → List.Chain' (stepRel succ) path →
        (∃ node, path.getLast? = some node ∧ ∀ c ∈ l, c ∈ succ node) →
        p ∈ (dfsList succ stopAt keep cb fuel l path).1 →
        p.Nodup ∧ List.Chain' (stepRel succ) p ∧
          ∃ x, p.getLast? = some x ∧ stopAt x = true) := by
  intro fuel
  induction fuel with
  | zero =>
    constructor
    · intro node path p _ _ _ hp
      simp [dfsVisit_zero, dfsVisit_succ] at hp
    · intro l path p _ _ _ hp
      rw [dfsList_zero] at hp
      simp at hp
  | succ fuel ih =>
    have hvisit : ∀ node path p, path.Nodup → List.Chain' (stepRel succ) path →
        path.getLast? = some node →
        p ∈ (dfsVisit succ stopAt keep cb (fuel + 1) node path).1 →
        p.Nodup ∧ List.Chain' (stepRel succ) p ∧
          ∃ x, p.getLast? = some x ∧ stopAt x = true := by
      intro node path p hnd hch hlast hp
      by_cases hstop : stopAt node = true
      · simp only [dfsVisit_zero, dfsVisit_succ, if_pos hstop] at hp
        simp at hp
        subst hp
        exact ⟨hnd, hch, node, hlast, hstop⟩
      · simp only [dfsVisit_zero, dfsVisit_succ, if_neg hstop] at hp
        exact ih.2 (succ node) path p hnd hch ⟨node, hlast, fun c hc => hc⟩ hp
    refine ⟨hvisit, ?_⟩
    intro l
    induction l with
    | nil =>
      intro path p _ _ _ hp
      simp [dfsList_nil, dfsList_cons] at hp
    | cons c cs ihl =>
      intro path p hnd hch hinv hp
      obtain ⟨node, hlast, hsub⟩ := hinv
      by_cases hskip : c ∈ path ∨ keep c = false
      · simp only [dfsList_nil, dfsList_cons, if_pos hskip] at hp
        exact ihl path p hnd hch ⟨node, hlast, fun x hx => hsub x (List.mem_cons_of_mem _ hx)⟩ hp
      · have hcp : c ∉ path := fun hc => hskip (Or.inl hc)
        have hnd2 : (path ++ [c]).Nodup := by
          simp [List.nodup_append, hnd, hcp]
        have hne : path ≠ [] := by
          intro he
          rw [he] at hlast
          simp at hlast
        have hch2 : List.Chain' (stepRel succ) (path ++ [c]) := by
          rw [List.chain'_append]
          refine ⟨hch, List.chain'_singleton c, ?_⟩
          intro x hx y hy
          simp at hy
          subst hy
          rw [hlast] at hx
          simp at hx
          subst hx
          exact hsub c (List.mem_cons_self c cs)
        have hlast2 : (path ++ [c]).getLast? = some c := by
          simp [List.getLast?_append]
        have hrec := hvisit c (path ++ [c])
        simp only [dfsList_nil, dfsList_cons, if_neg hskip] at hp
        rcases hr : dfsVisit succ stopAt keep cb (fuel + 1) c (path ++ [c]) with ⟨out, cont⟩
        rw [hr] at hp
        cases cont with
        | true =>
          simp at hp
          rcases hp with hp | hp
          · exact hrec p hnd2 hch2 hlast2 (by rw [hr]; exact hp)
          · exact ihl path p hnd hch
              ⟨node, hlast, fun x hx => hsub x (List.mem_cons_of_mem _ hx)⟩ hp
        | false =>
          simp at hp
          exact hrec p hnd2 hch2 hlast2 (by rw [hr]; exact hp)

/-- Within one enumeration no path is emitted twice. -/
theorem dfs_nodup (hsucc : ∀ n, (succ n).Nodup) :
    ∀ fuel : Nat,
      (∀ node path, (dfsVisit succ stopAt keep cb fuel node path).1.Nodup) ∧
      (∀ l path, l.Nodup → (dfsList succ stopAt keep cb fuel l path).1.Nodup) := by
  intro fuel
  induction fuel with
  | zero =>
    constructor
    · intro node path
      simp [dfsVisit_zero, dfsVisit_succ]
    · intro l path _
      rw [dfsList_zero]
      simp
  | succ fuel ih =>
    have hvisit : ∀ node path, (dfsVisit succ stopAt keep cb (fuel + 1) node path).1.Nodup := by
      intro node path
      by_cases hstop : stopAt node = true
      · simp [dfsVisit_zero, dfsVisit_succ, if_pos hstop]
      · simp only [dfsVisit_zero, dfsVisit_succ, if_neg hstop]
        exact ih.2 (succ node) path (hsucc node)
    refine ⟨hvisit, ?_⟩
    intro l
    induction l with
    | nil =>
      intro path _
      simp [dfsList_nil, dfsList_cons]
    | cons c cs ihl =>
      intro path hnd
      have hcs : cs.Nodup := (List.nodup_cons.mp hnd).2
      have hcnotin : c ∉ cs := (List.nodup_cons.mp hnd).1
      by_cases hskip : c ∈ path ∨ keep c = false
      · simp only [dfsList_nil, dfsList_cons, if_pos hskip]
        exact ihl path hcs
      · simp only [dfsList_nil, dfsList_cons, if_neg hskip]
        rcases hr : dfsVisit succ stopAt keep cb (fuel + 1) c (path ++ [c]) with ⟨out, cont⟩
        have hout : out.Nodup := by
          have h := hvisit c (path ++ [c])
          rw [hr] at h
          exact h
        cases cont with
        | false => simpa using hout
        | true =>
          have hr2 : (dfsList succ stopAt keep cb (fuel + 1) cs path).1.Nodup := ihl path hcs
          simp only []
          refine List.Nodup.append hout hr2 ?_
          intro p hp1 hp2
          obtain ⟨t, ht⟩ := (dfs_shape succ stopAt keep cb (fuel + 1)).1 c (path ++ [c]) p
            (by rw [hr]; exact hp1)
          obtain ⟨c2, t2, hc2, ht2⟩ := (dfs_shape succ stopAt keep cb (fuel + 1)).2 cs path p hp2
          rw [ht2, List.append_assoc] at ht
          have hcons : c2 :: t2 = c :: t := by
            exact List.append_cancel_left ht
          have : c2 = c := (List.cons.injEq .. ▸ hcons).1
          exact hcnotin (this ▸ hc2)

/-- One step of fuel stabilization: once the remaining fuel covers the
nodes not yet on the path, adding fuel does not change the result.  This
is the termination argument for the iterative loops: the C++ stack depth
never exceeds the number of distinct nodes. -/
theorem dfs_stab (V : Finset Nat) (hsuccV : ∀ n c, c ∈ succ n → c ∈ V) :
    ∀ fuel : Nat,
      (∀ node path, path.Nodup → (∀ x ∈ path, x ∈ V) →
        V.card + 1 ≤ fuel + path.length →
        dfsVisit succ stopAt keep cb (fuel + 1) node path =
          dfsVisit succ stopAt keep cb fuel node path) ∧
      (∀ l path, path.Nodup → (∀ x ∈ path, x ∈ V) → (∀ c ∈ l, c ∈ V) →
        V.card ≤ fuel + path.length →
        dfsList succ stopAt keep cb (fuel + 1) l path =
          dfsList succ stopAt keep cb fuel l path) := by
  intro fuel
  induction fuel with
  | zero =>
    refine ⟨?_, ?_⟩
    · intro node path hnd hpv hb
      exfalso
      have h1 : path.toFinset ⊆ V := fun x hx => hpv x (List.mem_toFinset.mp hx)
      have h2 : path.toFinset.card = path.length := List.toFinset_card_of_nodup hnd
      have h3 := Finset.card_le_card h1
      omega
    · intro l path hnd hpv hl hb
      have h1 : path.toFinset ⊆ V := fun x hx => hpv x (List.mem_toFinset.mp hx)
      have h2 : path.toFinset.card = path.length := List.toFinset_card_of_nodup hnd
      have h3 := Finset.card_le_card h1
      have hfeq : path.toFinset = V := Finset.eq_of_subset_of_card_le h1 (by omega)
      have key : ∀ l2 : List Nat, (∀ c ∈ l2, c ∈ path) →
          dfsList succ stopAt keep cb 1 l2 path = dfsList succ stopAt keep cb 0 l2 path := by
        intro l2
        induction l2 with
        | nil => intro _; simp [dfsList_nil, dfsList_cons]
        | cons c cs ihl =>
          intro hmem2
          have hskip : c ∈ path ∨ keep c = false :=
            Or.inl (hmem2 c (List.mem_cons_self c cs))
          simp only [dfsList_nil, dfsList_cons, if_pos hskip]
          exact ihl (fun x hx => hmem2 x (List.mem_cons_of_mem _ hx))
      refine key l ?_
      intro c hc
      have : c ∈ path.toFinset := hfeq ▸ hl c hc
      exact List.mem_toFinset.mp this
  | succ fuel ih =>
    have hvstep : ∀ node path, path.Nodup → (∀ x ∈ path, x ∈ V) →
        V.card + 1 ≤ (fuel + 1) + path.length →
        dfsVisit succ stopAt keep cb (fuel + 1 + 1) node path =
          dfsVisit succ stopAt keep cb (fuel + 1) node path := by
      intro node path hnd hpv hb
      by_cases hstop : stopAt node = true
      · simp [dfsVisit_zero, dfsVisit_succ, if_pos hstop]
      · simp only [dfsVisit_zero, dfsVisit_succ, if_neg hstop]
        exact ih.2 (succ node) path hnd hpv (fun c hc => hsuccV node c hc) (by omega)
    refine ⟨hvstep, ?_⟩
    intro l
    induction l with
    | nil =>
      intro path _ _ _ _
      simp [dfsList_nil, dfsList_cons]
    | cons c cs ihl =>
      intro path hnd hpv hl hb
      by_cases hskip : c ∈ path ∨ keep c = false
      · simp only [dfsList_nil, dfsList_cons, if_pos hskip]
        exact ihl path hnd hpv (fun x hx => hl x (List.mem_cons_of_mem _ hx)) hb
      · have hcp : c ∉ path := fun h => hskip (Or.inl h)
        have heq := hvstep c (path ++ [c])
          (by simp [List.nodup_append, hnd, hcp])
          (by
            intro x hx
            rcases List.mem_append.mp hx with h | h
            · exact hpv x h
            · simp at h
              rw [h]
              exact hl c (List.mem_cons_self c cs))
          (by simp only [List.length_append, List.length_singleton]; omega)
        simp only [dfsList_nil, dfsList_cons, if_neg hskip]
        rw [heq]
        rcases hr : dfsVisit succ stopAt keep cb (fuel + 1) c (path ++ [c]) with ⟨out, cont⟩
        cases cont with
        | true =>
          have h2 := ihl path hnd hpv (fun x hx => hl x (List.mem_cons_of_mem _ hx)) hb
          simp only [h2]
        | false => rfl

/-- All sufficiently large fuels compute the same enumeration. -/
theorem dfsVisit_fuel_ge (V : Finset Nat) (hsuccV : ∀ n c, c ∈ succ n → c ∈ V)
    (start : Nat) (hstart : start ∈ V) :
    ∀ fuel, V.card ≤ fuel →
      dfsVisit succ stopAt keep cb fuel start [start] =
        dfsVisit succ stopAt keep cb V.card start [start] := by
  intro fuel hf
  induction fuel with
  | zero =>
    have h0 : V.card = 0 := Nat.le_zero.mp hf
    rw [h0]
  | succ fuel ihf =>
    by_cases h : V.card ≤ fuel
    · rw [← ihf h]
      refine (dfs_stab succ stopAt keep cb V hsuccV fuel).1 start [start] (by simp) ?_ (by simp; omega)
      intro x hx
      simp at hx
      subst hx
      exact hstart
    · have he : V.card = fuel + 1 := by omega
      rw [he]

/-- A node that cannot reach the target contributes no emissions and
never stops the enumeration (used for the pruning argument). -/
theorem dfs_noreach (endU : Nat) :
    ∀ fuel : Nat,
      (∀ node path, ¬ Relation.ReflTransGen (stepRel succ) node endU →
        dfsVisit succ (fun n => decide (n = endU)) (fun _ => true) cb fuel node path =
          ([], true)) ∧
      (∀ l path, (∀ c ∈ l, ¬ Relation.ReflTransGen (stepRel succ) c endU) →
        dfsList succ (fun n => decide (n = endU)) (fun _ => true) cb fuel l path =
          ([], true)) := by
  intro fuel
  induction fuel with
  | zero =>
    exact ⟨fun node path _ => by simp [dfsVisit_zero, dfsVisit_succ], fun l path _ => dfsList_zero succ _ _ cb l path⟩
  | succ fuel ih =>
    have hvisit : ∀ node path, ¬ Relation.ReflTransGen (stepRel succ) node endU →
        dfsVisit succ (fun n => decide (n = endU)) (fun _ => true) cb (fuel + 1) node path =
          ([], true) := by
      intro node path hnr
      have hstop : ¬ (decide (node = endU) = true) := by
        simp only [decide_eq_true_eq]
        intro he
        exact hnr (he ▸ Relation.ReflTransGen.refl)
      simp only [dfsVisit_zero, dfsVisit_succ, if_neg hstop]
      refine ih.2 (succ node) path ?_
      intro c hc hrc
      exact hnr (Relation.ReflTransGen.head hc hrc)
    refine ⟨hvisit, ?_⟩
    intro l
    induction l with
    | nil =>
      intro path _
      simp [dfsList_nil, dfsList_cons]
    | cons c cs ihl =>
      intro path hnr
      have hcs : ∀ x ∈ cs, ¬ Relation.ReflTransGen (stepRel succ) x endU :=
        fun x hx => hnr x (List.mem_cons_of_mem _ hx)
      by_cases hskip : c ∈ path ∨ (fun _ : Nat => true) c = false
      · simp only [dfsList_nil, dfsList_cons, if_pos hskip]
        exact ihl path hcs
      · simp only [dfsList_nil, dfsList_cons, if_neg hskip]
        rw [hvisit c (path ++ [c]) (hnr c (List.mem_cons_self c cs))]
        simp only [List.nil_append]
        rw [ihl path hcs]

/-- The can_reach_end pruning never changes the enumeration: whenever the
pruning set is exactly the set of nodes that reach the target, the pruned
and unpruned DFS return identical results (same emissions, same order,
same callback interaction). -/
theorem dfs_prune_eq (endU : Nat) (S : List Nat)
    (hS : ∀ c, c ∈ S ↔ Relation.ReflTransGen (stepRel succ) c endU) :
    ∀ fuel : Nat,
      (∀ node path,
        dfsVisit succ (fun n => decide (n = endU)) (fun c => decide (c ∈ S)) cb fuel node path =
          dfsVisit succ (fun n => decide (n = endU)) (fun _ => true) cb fuel node path) ∧
      (∀ l path,
        dfsList succ (fun n => decide (n = endU)) (fun c => decide (c ∈ S)) cb fuel l path =
          dfsList succ (fun n => decide (n = endU)) (fun _ => true) cb fuel l path) := by
  intro fuel
  induction fuel with
  | zero =>
    refine ⟨fun node path => by simp [dfsVisit_zero, dfsVisit_succ], fun l path => ?_⟩
    rw [dfsList_zero, dfsList_zero]
  | succ fuel ih =>
    have hvisit : ∀ node path,
        dfsVisit succ (fun n => decide (n = endU)) (fun c => decide (c ∈ S)) cb (fuel + 1)
            node path =
          dfsVisit succ (fun n => decide (n = endU)) (fun _ => true) cb (fuel + 1) node path := by
      intro node path
      by_cases hstop : (decide (node = endU)) = true
      · simp only [dfsVisit_zero, dfsVisit_succ, if_pos hstop]
      · simp only [dfsVisit_zero, dfsVisit_succ, if_neg hstop]
        exact ih.2 (succ node) path
    refine ⟨hvisit, ?_⟩
    intro l
    induction l with
    | nil =>
      intro path
      simp [dfsList_nil, dfsList_cons]
    | cons c cs ihl =>
      intro path
      by_cases hpath : c ∈ path
      · have h1 : c ∈ path ∨ (decide (c ∈ S)) = false := Or.inl hpath
        have h2 : c ∈ path ∨ (fun _ : Nat => true) c = false := Or.inl hpath
        simp only [dfsList_nil, dfsList_cons, if_pos h1, if_pos h2]
        exact ihl path
      · by_cases hcS : c ∈ S
        · have h1 : ¬ (c ∈ path ∨ (decide (c ∈ S)) = false) := by
            simp [hpath, hcS]
          have h2 : ¬ (c ∈ path ∨ (fun _ : Nat => true) c = false) := by
            simp [hpath]
          simp only [dfsList_nil, dfsList_cons, if_neg h1, if_neg h2]
          rw [hvisit c (path ++ [c])]
          rcases hr : dfsVisit succ (fun n => decide (n = endU)) (fun _ => true) cb (fuel + 1)
              c (path ++ [c]) with ⟨out, cont⟩
          cases cont with
          | true => simp only [ihl path]
          | false => rfl
        · have h1 : c ∈ path ∨ (decide (c ∈ S)) = false := Or.inr (by simp [hcS])
          have h2 : ¬ (c ∈ path ∨ (fun _ : Nat => true) c = false) := by
            simp [hpath]
          simp only [dfsList_nil, dfsList_cons, if_pos h1, if_neg h2]
          rw [(dfs_noreach succ cb endU (fuel + 1)).1 c (path ++ [c])
            (fun hrc => hcS ((hS c).mpr hrc))]
          simp only [List.nil_append]
          rw [ihl path]

end DfsLemmas

/- ===================== BFS lemmas ===================== -/

section BfsLemmas

variable (callers : Nat → List Nat)

/-- Everything the reverse BFS collects is reachable from its seed. -/
theorem bfsLoop_sound (endU : Nat) :
    ∀ fuel q vis, (∀ x ∈ q, Relation.ReflTransGen (stepRel callers) endU x) →
      (∀ x ∈ vis, Relation.ReflTransGen (stepRel callers) endU x) →
      ∀ v ∈ bfsLoop callers fuel q vis,
        Relation.ReflTransGen (stepRel callers) endU v := by
  intro fuel
  induction fuel with
  | zero =>
    intro q vis _ hv v hvv
    exact hv v (by simpa [bfsLoop] using hvv)
  | succ fuel ih =>
    intro q vis hq hv v hvv
    cases q with
    | nil => exact hv v (by simpa [bfsLoop] using hvv)
    | cons n queue =>
      simp only [bfsLoop] at hvv
      have hstep : ∀ x, x ∈ (callers n).filter (fun c => decide (c ∉ vis)) →
          Relation.ReflTransGen (stepRel callers) endU x := by
        intro x hx
        have hx2 : x ∈ callers n := (List.mem_filter.mp hx).1
        exact Relation.ReflTransGen.tail (hq n (List.mem_cons_self n queue)) hx2
      refine ih _ _ ?_ ?_ v hvv
      · intro x hx
        rcases List.mem_append.mp hx with h | h
        · exact hq x (List.mem_cons_of_mem _ h)
        · exact hstep x h
      · intro x hx
        rcases List.mem_append.mp hx with h | h
        · exact hv x h
        · exact hstep x h

/-- With enough fuel the reverse BFS result contains its seeds and is
closed under one caller step. -/
theorem bfsLoop_closed (V : Finset Nat) (hcalV : ∀ n c, c ∈ callers n → c ∈ V)
    (hcalnd : ∀ n, (callers n).Nodup) :
    ∀ fuel q vis, vis.Nodup → (∀ x ∈ vis, x ∈ V) → (∀ x ∈ q, x ∈ vis) →
      (∀ x ∈ vis, x ∉ q → ∀ c ∈ callers x, c ∈ vis) →
      q.length + V.card ≤ fuel + vis.length →
      (∀ x ∈ vis, x ∈ bfsLoop callers fuel q vis) ∧
      (∀ x ∈ bfsLoop callers fuel q vis, ∀ c ∈ callers x,
        c ∈ bfsLoop callers fuel q vis) := by
  intro fuel
  induction fuel with
  | zero =>
    intro q vis hnd hvV hqv hcl hb
    have h2 : vis.toFinset.card = vis.length := List.toFinset_card_of_nodup hnd
    have h3 : vis.toFinset ⊆ V := fun x hx => hvV x (List.mem_toFinset.mp hx)
    have h4 := Finset.card_le_card h3
    have hq0 : q = [] := List.length_eq_zero.mp (by omega)
    subst hq0
    refine ⟨fun x hx => by simpa [bfsLoop] using hx, ?_⟩
    intro x hx c hc
    simp only [bfsLoop] at hx ⊢
    exact hcl x hx (by simp) c hc
  | succ fuel ih =>
    intro q vis hnd hvV hqv hcl hb
    cases q with
    | nil =>
      refine ⟨fun x hx => by simpa [bfsLoop] using hx, ?_⟩
      intro x hx c hc
      simp only [bfsLoop] at hx ⊢
      exact hcl x hx (by simp) c hc
    | cons n queue =>
      simp only [bfsLoop]
      set fresh := (callers n).filter (fun c => decide (c ∉ vis)) with hfresh
      have hfnd : fresh.Nodup := List.Nodup.filter _ (hcalnd n)
      have hfdis : ∀ x ∈ fresh, x ∉ vis := by
        intro x hx
        have := (List.mem_filter.mp hx).2
        simpa using this
      have hnd2 : (vis ++ fresh).Nodup := by
        rw [List.nodup_append]
        exact ⟨hnd, hfnd, fun x hx hx2 => hfdis x hx2 hx⟩
      have hvV2 : ∀ x ∈ vis ++ fresh, x ∈ V := by
        intro x hx
        rcases List.mem_append.mp hx with h | h
        · exact hvV x h
        · exact hcalV n x (List.mem_filter.mp h).1
      have hqv2 : ∀ x ∈ queue ++ fresh, x ∈ vis ++ fresh := by
        intro x hx
        rcases List.mem_append.mp hx with h | h
        · exact List.mem_append_left _ (hqv x (List.mem_cons_of_mem _ h))
        · exact List.mem_append_right _ h
      have hcl2 : ∀ x ∈ vis ++ fresh, x ∉ queue ++ fresh →
          ∀ c ∈ callers x, c ∈ vis ++ fresh := by
        intro x hx hnx c hc
        rcases List.mem_append.mp hx with h | h
        · by_cases hxn : x = n
          · subst hxn
            by_cases hcv : c ∈ vis
            · exact List.mem_append_left _ hcv
            · refine List.mem_append_right _ ?_
              rw [hfresh]
              exact List.mem_filter.mpr ⟨hc, by simpa using hcv⟩
          · have hxq : x ∉ n :: queue := by
              intro hxq
              rcases List.mem_cons.mp hxq with h2 | h2
              · exact hxn h2
              · exact hnx (List.mem_append_left _ h2)
            exact List.mem_append_left _ (hcl x h hxq c hc)
        · exact absurd (List.mem_append_right queue h) hnx
      have hb2 : (queue ++ fresh).length + V.card ≤ fuel + (vis ++ fresh).length := by
        simp only [List.length_append]
        simp only [List.length_cons] at hb
        omega
      have := ih (queue ++ fresh) (vis ++ fresh) hnd2 hvV2 hqv2 hcl2 hb2
      exact ⟨fun x hx => this.1 x (List.mem_append_left _ hx), this.2⟩

/-- Characterization of the can_reach_end set: with enough fuel the BFS
from endU collects exactly the nodes reachable from endU along the
caller adjacency. -/
theorem bfs_characterization (V : Finset Nat) (hcalV : ∀ n c, c ∈ callers n → c ∈ V)
    (hcalnd : ∀ n, (callers n).Nodup) (endU : Nat) (hend : endU ∈ V) (fuel : Nat)
    (hf : V.card ≤ fuel) :
    ∀ v, v ∈ bfsLoop callers fuel [endU] [endU] ↔
      Relation.ReflTransGen (stepRel callers) endU v := by
  have hclosed := bfsLoop_closed callers V hcalV hcalnd fuel [endU] [endU]
    (by simp)
    (by
      intro x hx
      simp at hx
      rw [hx]
      exact hend)
    (by simp) (by simp) (by simp; omega)
  intro v
  constructor
  · intro hv
    refine bfsLoop_sound callers endU fuel [endU] [endU] ?_ ?_ v hv
    · intro x hx
      simp at hx
      rw [hx]
    · intro x hx
      simp at hx
      rw [hx]
  · intro hreach
    induction hreach with
    | refl => exact hclosed.1 endU (by simp)
    | tail hab hbc ihr => exact hclosed.2 _ ihr _ hbc

end BfsLemmas

/- ===================== bridging lemmas on the graph model ===================== -/

theorem get_callees_nodup (g : Graph) (h : g.callAdjNodup) (n : Nat) :
    (g.get_callees n).Nodup := by
  unfold Graph.get_callees
  cases hx : alLookup g.call_graph.call_map n with
  | none => simp
  | some l =>
    have := h.1 (n, l) (alLookup_mem hx)
    simpa using this

theorem get_callers_nodup (g : Graph) (h : g.callAdjNodup) (n : Nat) :
    (g.get_callers n).Nodup := by
  unfold Graph.get_callers
  cases hx : alLookup g.call_graph.reverse_call_map n with
  | none => simp
  | some l =>
    have := h.2 (n, l) (alLookup_mem hx)
    simpa using this

theorem get_callees_mem_lt (g : Graph) (h : g.callEdgesBounded) {n c : Nat}
    (hc : c ∈ g.get_callees n) : c < g.call_graph.next_uid := by
  unfold Graph.get_callees at hc
  cases hx : alLookup g.call_graph.call_map n with
  | none => rw [hx] at hc; simp at hc
  | some l =>
    rw [hx] at hc
    simp at hc
    exact (h.1 (n, l) (alLookup_mem hx)).2 c hc

theorem get_callers_mem_lt (g : Graph) (h : g.callEdgesBounded) {n c : Nat}
    (hc : c ∈ g.get_callers n) : c < g.call_graph.next_uid := by
  unfold Graph.get_callers at hc
  cases hx : alLookup g.call_graph.reverse_call_map n with
  | none => rw [hx] at hc; simp at hc
  | some l =>
    rw [hx] at hc
    simp at hc
    exact (h.2 (n, l) (alLookup_mem hx)).2 c hc

theorem call_consistent_iff (g : Graph) (h : g.callConsistent) (a b : Nat) :
    b ∈ g.get_callees a ↔ a ∈ g.get_callers b := by
  constructor
  · intro hb
    unfold Graph.get_callees at hb
    cases hx : alLookup g.call_graph.call_map a with
    | none => rw [hx] at hb; simp at hb
    | some l =>
      rw [hx] at hb
      simp at hb
      exact h.1 (a, l) (alLookup_mem hx) b hb
  · intro ha
    unfold Graph.get_callers at ha
    cases hx : alLookup g.call_graph.reverse_call_map b with
    | none => rw [hx] at ha; simp at ha
    | some l =>
      rw [hx] at ha
      simp at ha
      exact h.2 (b, l) (alLookup_mem hx) a ha

theorem reflTransGen_flip {R Q : Nat → Nat → Prop} (h : ∀ a b, R a b ↔ Q b a) {x y : Nat}
    (hr : Relation.ReflTransGen R x y) : Relation.ReflTransGen Q y x := by
  induction hr with
  | refl => exact Relation.ReflTransGen.refl
  | tail _ hbc ih => exact Relation.ReflTransGen.head ((h _ _).mp hbc) ih

/- ===================== claim theorems: path enumeration ===================== -/

/-- C1.  Every path emitted through the callback by the path-enumeration
routines is simple, has the query endpoints at its two ends, and walks
actual call edges: for dfs_forward and dfs_bidirectional the first
element is start, the last is end, and each consecutive pair is a
forward call edge; for dfs_backward (the backtrace direction) paths are
emitted root-first, so the last element is the queried start symbol, the
first element is a root (a node with no callers) or the caller-specified
end when one is given, and each consecutive pair is a caller edge.
This holds for every graph, every callback, and every start/end pair. -/
theorem claim_C1_emitted_paths_sound (g : Graph) (cb : List String → Bool)
    (start endU : Nat) :
    (∀ p ∈ g.dfs_forward cb start endU,
      p.Nodup ∧ p.head? = some start ∧ p.getLast? = some endU ∧
        List.Chain' (fun a b => b ∈ g.get_callees a) p) ∧
    (∀ p ∈ g.dfs_bidirectional cb start endU,
      p.Nodup ∧ p.head? = some start ∧ p.getLast? = some endU ∧
        List.Chain' (fun a b => b ∈ g.get_callees a) p) ∧
    (∀ p ∈ g.dfs_backward cb start endU,
      p.Nodup ∧ p.getLast? = some start ∧
        (∃ h, p.head? = some h ∧ (g.get_callers h = [] ∨ (endU ≠ 0 ∧ h = endU))) ∧
        List.Chain' (fun a b => a ∈ g.get_callers b) p) := by
  have base :
      ∀ (keep : Nat → Bool) (stopAt : Nat → Bool) (succ : Nat → List Nat)
        (cb2 : List Nat → Bool) (fuel : Nat),
        ∀ p ∈ (dfsVisit succ stopAt keep cb2 fuel start [start]).1,
          p.Nodup ∧ p.head? = some start ∧ List.Chain' (stepRel succ) p ∧
            ∃ x, p.getLast? = some x ∧ stopAt x = true := by
    intro keep stopAt succ cb2 fuel p hp
    obtain ⟨hnd, hch, x, hx, hstop⟩ :=
      (dfs_invariants succ stopAt keep cb2 fuel).1 start [start] p (by simp)
        (List.chain'_singleton start) rfl hp
    obtain ⟨t, ht⟩ := (dfs_shape succ stopAt keep cb2 fuel).1 start [start] p hp
    refine ⟨hnd, ?_, hch, x, hx, hstop⟩
    rw [ht]
    simp
  refine ⟨?_, ?_, ?_⟩
  · intro p hp
    obtain ⟨hnd, hh, hch, x, hx, hstop⟩ := base _ _ _ _ _ p hp
    simp only [decide_eq_true_eq] at hstop
    exact ⟨hnd, hh, hstop ▸ hx, hch⟩
  · intro p hp
    unfold Graph.dfs_bidirectional Graph.dfs_bidirectionalFuel at hp
    by_cases hmem : start ∉ g.canReachEndFuel g.dfsFuel endU
    · simp only [if_pos hmem] at hp
      simp at hp
    · simp only [if_neg hmem] at hp
      obtain ⟨hnd, hh, hch, x, hx, hstop⟩ := base _ _ _ _ _ p hp
      simp only [decide_eq_true_eq] at hstop
      exact ⟨hnd, hh, hstop ▸ hx, hch⟩
  · intro p hp
    unfold Graph.dfs_backward Graph.dfs_backwardFuel at hp
    rw [List.mem_map] at hp
    obtain ⟨q, hq, hqr⟩ := hp
    obtain ⟨hnd, hh, hch, x, hx, hstop⟩ := base _ _ _ _ _ q hq
    simp only [decide_eq_true_eq] at hstop
    subst hqr
    refine ⟨List.nodup_reverse.mpr hnd, ?_, ⟨x, ?_, ?_⟩, ?_⟩
    · rw [List.getLast?_reverse]
      exact hh
    · rw [List.head?_reverse]
      exact hx
    · rcases hstop with hroot | hend
      · left
        exact List.isEmpty_iff.mp hroot
      · right
        exact hend
    · rw [List.chain'_reverse]
      exact hch

/-- C3.  The reverse-BFS pruning of the bidirectional search removes no
path and adds none: under the always-true callback dfs_bidirectional
emits exactly the paths of the naive forward DFS (here even in the same
order).  The graph hypotheses are the invariants every indexed graph
satisfies: forward/reverse edge sets agree, adjacency sets are
duplicate-free, and all uids are below next_uid. -/
theorem claim_C3_bidirectional_equals_forward (g : Graph) (start endU : Nat)
    (hnd : g.callAdjNodup) (hbd : g.callEdgesBounded) (hcons : g.callConsistent)
    (hend : endU < g.call_graph.next_uid) :
    g.dfs_bidirectional cbTrue start endU = g.dfs_forward cbTrue start endU := by
  set V : Finset Nat := Finset.range g.call_graph.next_uid with hV
  have hVcard : V.card = g.call_graph.next_uid := Finset.card_range _
  have hcalV : ∀ n c, c ∈ g.get_callers n → c ∈ V := by
    intro n c hc
    rw [hV, Finset.mem_range]
    exact get_callers_mem_lt g hbd hc
  have hcalnd : ∀ n, (g.get_callers n).Nodup := get_callers_nodup g hnd
  have hchar := bfs_characterization g.get_callers V hcalV hcalnd endU
    (by rw [hV, Finset.mem_range]; exact hend) g.dfsFuel
    (by rw [hVcard]; unfold Graph.dfsFuel; omega)
  have hS : ∀ c, c ∈ g.canReachEndFuel g.dfsFuel endU ↔
      Relation.ReflTransGen (stepRel g.get_callees) c endU := by
    intro c
    rw [Graph.canReachEndFuel, hchar c]
    constructor
    · intro h
      exact reflTransGen_flip (fun a b => by
        unfold stepRel
        exact (call_consistent_iff g hcons b a).symm.trans (Iff.rfl)) h
    · intro h
      exact reflTransGen_flip (fun a b => by
        unfold stepRel
        exact call_consistent_iff g hcons a b) h
  unfold Graph.dfs_bidirectional Graph.dfs_bidirectionalFuel Graph.dfs_forward
    Graph.dfs_forwardFuel
  by_cases hmem : start ∉ g.canReachEndFuel g.dfsFuel endU
  · simp only [if_pos hmem]
    have hnr : ¬ Relation.ReflTransGen (stepRel g.get_callees) start endU :=
      fun h => hmem ((hS start).mpr h)
    rw [(dfs_noreach g.get_callees (fun p => cbTrue (p.map g.get_symbol)) endU g.dfsFuel).1
      start [start] hnr]
  · simp only [if_neg hmem]
    rw [(dfs_prune_eq g.get_callees (fun p => cbTrue (p.map g.get_symbol)) endU
      (g.canReachEndFuel g.dfsFuel endU) hS g.dfsFuel).1 start [start]]

/-- C5.  On every finite call graph - cycles included - the three path
enumerators terminate, and no single enumeration emits a path twice.
Termination is expressed through the fuel bound: the iterative loops
never need a stack deeper than the number of uids, so every fuel at or
beyond dfsFuel computes the same (defined) result. -/
theorem claim_C5_termination_and_no_duplicates (g : Graph) (cb : List String → Bool)
    (start endU : Nat) (hnd : g.callAdjNodup) (hbd : g.callEdgesBounded)
    (hstart : start < g.call_graph.next_uid) (hend : endU < g.call_graph.next_uid) :
    (∀ fuel, g.dfsFuel ≤ fuel →
      g.dfs_forwardFuel cb fuel start endU = g.dfs_forward cb start endU ∧
      g.dfs_backwardFuel cb fuel start endU = g.dfs_backward cb start endU ∧
      g.dfs_bidirectionalFuel cb fuel start endU = g.dfs_bidirectional cb start endU) ∧
    (g.dfs_forward cb start endU).Nodup ∧
    (g.dfs_backward cb start endU).Nodup ∧
    (g.dfs_bidirectional cb start endU).Nodup := by
  set V : Finset Nat := Finset.range g.call_graph.next_uid with hV
  have hVcard : V.card = g.call_graph.next_uid := Finset.card_range _
  have hstartV : start ∈ V := by rw [hV, Finset.mem_range]; exact hstart
  have hendV : endU ∈ V := by rw [hV, Finset.mem_range]; exact hend
  have hfwdV : ∀ n c, c ∈ g.get_callees n → c ∈ V := by
    intro n c hc
    rw [hV, Finset.mem_range]
    exact get_callees_mem_lt g hbd hc
  have hbwdV : ∀ n c, c ∈ g.get_callers n → c ∈ V := by
    intro n c hc
    rw [hV, Finset.mem_range]
    exact get_callers_mem_lt g hbd hc
  have hfweq : ∀ (stopAt keep : Nat → Bool) (cb2 : List Nat → Bool) (fuel : Nat),
      V.card ≤ fuel →
      dfsVisit g.get_callees stopAt keep cb2 fuel start [start] =
        dfsVisit g.get_callees stopAt keep cb2 g.dfsFuel start [start] := by
    intro stopAt keep cb2 fuel hf
    rw [dfsVisit_fuel_ge g.get_callees stopAt keep cb2 V hfwdV start hstartV fuel hf,
      dfsVisit_fuel_ge g.get_callees stopAt keep cb2 V hfwdV start hstartV g.dfsFuel
        (by rw [hVcard]; unfold Graph.dfsFuel; omega)]
  have hbweq : ∀ (stopAt keep : Nat → Bool) (cb2 : List Nat → Bool) (fuel : Nat),
      V.card ≤ fuel →
      dfsVisit g.get_callers stopAt keep cb2 fuel start [start] =
        dfsVisit g.get_callers stopAt keep cb2 g.dfsFuel start [start] := by
    intro stopAt keep cb2 fuel hf
    rw [dfsVisit_fuel_ge g.get_callers stopAt keep cb2 V hbwdV start hstartV fuel hf,
      dfsVisit_fuel_ge g.get_callers stopAt keep cb2 V hbwdV start hstartV g.dfsFuel
        (by rw [hVcard]; unfold Graph.dfsFuel; omega)]
  have hbfs : ∀ fuel, V.card ≤ fuel → ∀ c,
      (c ∈ g.canReachEndFuel fuel endU ↔ c ∈ g.canReachEndFuel g.dfsFuel endU) := by
    intro fuel hf c
    rw [Graph.canReachEndFuel, Graph.canReachEndFuel,
      bfs_characterization g.get_callers V hbwdV (get_callers_nodup g hnd) endU hendV fuel hf,
      bfs_characterization g.get_callers V hbwdV (get_callers_nodup g hnd) endU hendV g.dfsFuel
        (by rw [hVcard]; unfold Graph.dfsFuel; omega)]
  constructor
  · intro fuel hfuel
    have hf : V.card ≤ fuel := by
      rw [hVcard]
      unfold Graph.dfsFuel at hfuel
      omega
    refine ⟨?_, ?_, ?_⟩
    · unfold Graph.dfs_forward Graph.dfs_forwardFuel
      rw [hfweq _ _ _ fuel hf]
    · unfold Graph.dfs_backward Graph.dfs_backwardFuel
      rw [hbweq _ _ _ fuel hf]
    · unfold Graph.dfs_bidirectional Graph.dfs_bidirectionalFuel
      have hkeep : (fun c => decide (c ∈ g.canReachEndFuel fuel endU)) =
          (fun c => decide (c ∈ g.canReachEndFuel g.dfsFuel endU)) := by
        funext c
        exact decide_eq_decide.mpr (hbfs fuel hf c)
      have hcond : (start ∉ g.canReachEndFuel fuel endU) ↔
          (start ∉ g.canReachEndFuel g.dfsFuel endU) := not_congr (hbfs fuel hf start)
      by_cases hmem : start ∉ g.canReachEndFuel g.dfsFuel endU
      · simp only [if_pos hmem, if_pos (hcond.mpr hmem)]
      · simp only [if_neg hmem, if_neg (fun h => hmem (hcond.mp h))]
        rw [hkeep, hfweq _ _ _ fuel hf]
  · refine ⟨?_, ?_, ?_⟩
    · exact (dfs_nodup g.get_callees _ _ _ (get_callees_nodup g hnd) g.dfsFuel).1 start [start]
    · exact List.Nodup.map List.reverse_injective
        ((dfs_nodup g.get_callers _ _ _ (get_callers_nodup g hnd) g.dfsFuel).1 start [start])
    · unfold Graph.dfs_bidirectional Graph.dfs_bidirectionalFuel
      by_cases hmem : start ∉ g.canReachEndFuel g.dfsFuel endU
      · simp [if_pos hmem]
      · simp only [if_neg hmem]
        exact (dfs_nodup g.get_callees _ _ _ (get_callees_nodup g hnd) g.dfsFuel).1 start [start]

/- ===================== persistence round-trip lemmas ===================== -/

theorem alLookup_map_value {α β γ : Type} [DecidableEq α] (l : List (α × β)) (f : β → γ)
    (k : α) :
    alLookup (l.map (fun p => (p.1, f p.2))) k = (alLookup l k).map f := by
  induction l with
  | nil => simp [alLookup]
  | cons p rest ih =>
    by_cases h : p.1 = k <;> simp [alLookup, h, ih]

theorem keysNodup_map_value {α β γ : Type} (l : List (α × β)) (f : β → γ)
    (h : keysNodup l) : keysNodup (l.map (fun p => (p.1, f p.2))) := by
  unfold keysNodup at *
  simpa [List.map_map, Function.comp] using h

theorem intToSymbolType_symbolTypeToInt (t : SymbolType) :
    intToSymbolType (symbolTypeToInt t) = t := by
  cases t <;> rfl

theorem poolFind_lt {l : List String} {s : String} {i : Nat} (h : poolFind l s = some i) :
    i < l.length := by
  induction l generalizing i with
  | nil => simp [poolFind] at h
  | cons x rest ih =>
    simp only [List.length_cons]
    by_cases hx : x = s
    · simp [poolFind, hx] at h
      omega
    · simp only [poolFind, hx, if_false, Option.map_eq_some'] at h
      obtain ⟨j, hj, hji⟩ := h
      have := ih hj
      omega

theorem getD_append_self (l : List String) (s : String) :
    (l ++ [s]).getD l.length "" = s := by
  induction l with
  | nil => rfl
  | cons x rest ih => simp [List.getD_cons_succ, ih]

theorem getD_append_left (l l2 : List String) {i : Nat} (h : i < l.length) :
    (l ++ l2).getD i "" = l.getD i "" := by
  induction l generalizing i with
  | nil => simp at h
  | cons x rest ih =>
    cases i with
    | zero => simp [List.getD_cons_zero]
    | succ j =>
      simp only [List.cons_append, List.getD_cons_succ]
      exact ih (by simpa using h)

theorem poolFind_getD (l : List String) (s : String) {i : Nat}
    (h : poolFind l s = some i) : l.getD i "" = s := by
  induction l generalizing i with
  | nil => simp [poolFind] at h
  | cons x rest ih =>
    by_cases hx : x = s
    · simp [poolFind, hx] at h
      simp [← h, List.getD_cons_zero, hx]
    · simp only [poolFind, hx, if_false, Option.map_eq_some'] at h
      obtain ⟨j, hj, hji⟩ := h
      rw [← hji]
      simpa [List.getD_cons_succ] using ih hj

theorem StringPool.intern_get_self (p : StringPool) (s : String) :
    ((p.intern s).1).get (p.intern s).2 = s := by
  unfold StringPool.intern
  cases hf : poolFind p.strings s with
  | none => simp [StringPool.get, getD_append_self p.strings s]
  | some i => exact poolFind_getD p.strings s hf

theorem StringPool.intern_get_stable (p : StringPool) (s : String) {i : Nat}
    (h : i < p.strings.length) : ((p.intern s).1).get i = p.get i := by
  unfold StringPool.intern
  cases hf : poolFind p.strings s with
  | none => simpa [StringPool.get] using getD_append_left p.strings [s] h
  | some j => simp

theorem rebuildAdj_append {α : Type} [DecidableEq α] (l1 l2 : List (α × α))
    (m : List (α × List α)) :
    rebuildAdj (l1 ++ l2) m = rebuildAdj l2 (rebuildAdj l1 m) := by
  unfold rebuildAdj
  exact List.foldl_append _ _ _ _

theorem edgePairs_cons {α : Type} (p : α × List α) (rest : List (α × List α)) :
    edgePairs (p :: rest) = p.2.map (fun b => (p.1, b)) ++ edgePairs rest := by
  simp [edgePairs]

theorem StringPool.intern_len_mono (p : StringPool) (s : String) :
    p.strings.length ≤ ((p.intern s).1).strings.length := by
  unfold StringPool.intern
  cases poolFind p.strings s <;> simp

theorem StringPool.intern_idx_lt (p : StringPool) (s : String) :
    (p.intern s).2 < ((p.intern s).1).strings.length := by
  unfold StringPool.intern
  cases hf : poolFind p.strings s with
  | none => simp
  | some i => simpa using poolFind_lt hf

theorem loadCallMapping_inner (a : Nat) (bs : List Nat) (gg : CallGraph) :
    (bs.foldl (fun acc2 callee =>
        { acc2 with
            call_map := adjInsert acc2.call_map a callee
            reverse_call_map := adjInsert acc2.reverse_call_map callee a }) gg).call_map =
      rebuildAdj (bs.map (fun b => (a, b))) gg.call_map ∧
    (bs.foldl (fun acc2 callee =>
        { acc2 with
            call_map := adjInsert acc2.call_map a callee
            reverse_call_map := adjInsert acc2.reverse_call_map callee a }) gg).reverse_call_map =
      rebuildAdj (bs.map (fun b => (b, a))) gg.reverse_call_map ∧
    (bs.foldl (fun acc2 callee =>
        { acc2 with
            call_map := adjInsert acc2.call_map a callee
            reverse_call_map := adjInsert acc2.reverse_call_map callee a }) gg).symbol_to_uid =
      gg.symbol_to_uid ∧
    (bs.foldl (fun acc2 callee =>
        { acc2 with
            call_map := adjInsert acc2.call_map a callee
            reverse_call_map := adjInsert acc2.reverse_call_map callee a }) gg).symbol_types =
      gg.symbol_types ∧
    (bs.foldl (fun acc2 callee =>
        { acc2 with
            call_map := adjInsert acc2.call_map a callee
            reverse_call_map := adjInsert acc2.reverse_call_map callee a }) gg).data_flow_map =
      gg.data_flow_map ∧
    (bs.foldl (fun acc2 callee =>
        { acc2 with
            call_map := adjInsert acc2.call_map a callee
            reverse_call_map := adjInsert acc2.reverse_call_map callee a }) gg).reverse_data_flow_map =
      gg.reverse_data_flow_map ∧
    (bs.foldl (fun acc2 callee =>
        { acc2 with
            call_map := adjInsert acc2.call_map a callee
            reverse_call_map := adjInsert acc2.reverse_call_map callee a }) gg).filepath_pool =
      gg.filepath_pool ∧
    (bs.foldl (fun acc2 callee =>
        { acc2 with
            call_map := adjInsert acc2.call_map a callee
            reverse_call_map := adjInsert acc2.reverse_call_map callee a }) gg).file_uid_to_path_idx =
      gg.file_uid_to_path_idx ∧
    (bs.foldl (fun acc2 callee =>
        { acc2 with
            call_map := adjInsert acc2.call_map a callee
            reverse_call_map := adjInsert acc2.reverse_call_map callee a }) gg).filepath_to_uid =
      gg.filepath_to_uid ∧
    (bs.foldl (fun acc2 callee =>
        { acc2 with
            call_map := adjInsert acc2.call_map a callee
            reverse_call_map := adjInsert acc2.reverse_call_map callee a }) gg).file_to_symbols =
      gg.file_to_symbols ∧
    (bs.foldl (fun acc2 callee =>
        { acc2 with
            call_map := adjInsert acc2.call_map a callee
            reverse_call_map := adjInsert acc2.reverse_call_map callee a }) gg).symbol_to_file =
      gg.symbol_to_file ∧
    (bs.foldl (fun acc2 callee =>
        { acc2 with
            call_map := adjInsert acc2.call_map a callee
            reverse_call_map := adjInsert acc2.reverse_call_map callee a }) gg).end_uid =
      gg.end_uid := by
  induction bs generalizing gg with
  | nil => simp [rebuildAdj]
  | cons b rest ih =>
    simp only [List.foldl_cons, List.map_cons, rebuildAdj] at ih ⊢
    exact ih _

theorem loadCallMapping_fields (e : List (Nat × List Nat)) (gg : CallGraph) :
    (loadCallMapping e gg).call_map = rebuildAdj (edgePairs e) gg.call_map ∧
    (loadCallMapping e gg).reverse_call_map =
      rebuildAdj ((edgePairs e).map (fun q => (q.2, q.1))) gg.reverse_call_map ∧
    (loadCallMapping e gg).symbol_to_uid = gg.symbol_to_uid ∧
    (loadCallMapping e gg).symbol_types = gg.symbol_types ∧
    (loadCallMapping e gg).data_flow_map = gg.data_flow_map ∧
    (loadCallMapping e gg).reverse_data_flow_map = gg.reverse_data_flow_map ∧
    (loadCallMapping e gg).filepath_pool = gg.filepath_pool ∧
    (loadCallMapping e gg).file_uid_to_path_idx = gg.file_uid_to_path_idx ∧
    (loadCallMapping e gg).filepath_to_uid = gg.filepath_to_uid ∧
    (loadCallMapping e gg).file_to_symbols = gg.file_to_symbols ∧
    (loadCallMapping e gg).symbol_to_file = gg.symbol_to_file ∧
    (loadCallMapping e gg).end_uid = gg.end_uid := by
  induction e generalizing gg with
  | nil => simp [loadCallMapping, rebuildAdj, edgePairs]
  | cons p rest ih =>
    have hinner := loadCallMapping_inner p.1 p.2 gg
    have hrest := ih (p.2.foldl (fun acc2 callee =>
      { acc2 with
          call_map := adjInsert acc2.call_map p.1 callee
          reverse_call_map := adjInsert acc2.reverse_call_map callee p.1 }) gg)
    have hstep : loadCallMapping (p :: rest) gg =
        loadCallMapping rest (p.2.foldl (fun acc2 callee =>
          { acc2 with
              call_map := adjInsert acc2.call_map p.1 callee
              reverse_call_map := adjInsert acc2.reverse_call_map callee p.1 }) gg) := by
      simp [loadCallMapping, List.foldl_cons]
    rw [hstep]
    rw [edgePairs_cons]
    refine ⟨?_, ?_, ?_, ?_, ?_, ?_, ?_, ?_, ?_, ?_, ?_, ?_⟩
    · rw [hrest.1, hinner.1, rebuildAdj_append]
    · rw [hrest.2.1, hinner.2.1, List.map_append, rebuildAdj_append, List.map_map]
      rfl
    · rw [hrest.2.2.1, hinner.2.2.1]
    · rw [hrest.2.2.2.1, hinner.2.2.2.1]
    · rw [hrest.2.2.2.2.1, hinner.2.2.2.2.1]
    · rw [hrest.2.2.2.2.2.1, hinner.2.2.2.2.2.1]
    · rw [hrest.2.2.2.2.2.2.1, hinner.2.2.2.2.2.2.1]
    · rw [hrest.2.2.2.2.2.2.2.1, hinner.2.2.2.2.2.2.2.1]
    · rw [hrest.2.2.2.2.2.2.2.2.1, hinner.2.2.2.2.2.2.2.2.1]
    · rw [hrest.2.2.2.2.2.2.2.2.2.1, hinner.2.2.2.2.2.2.2.2.2.1]
    · rw [hrest.2.2.2.2.2.2.2.2.2.2.1, hinner.2.2.2.2.2.2.2.2.2.2.1]
    · rw [hrest.2.2.2.2.2.2.2.2.2.2.2, hinner.2.2.2.2.2.2.2.2.2.2.2]

theorem loadDataFlow_inner (a : Nat) (bs : List Nat) (gg : CallGraph) :
    (bs.foldl (fun acc2 dest =>
        { acc2 with
            data_flow_map := adjInsert acc2.data_flow_map a dest
            reverse_data_flow_map := adjInsert acc2.reverse_data_flow_map dest a }) gg).data_flow_map =
      rebuildAdj (bs.map (fun b => (a, b))) gg.data_flow_map ∧
    (bs.foldl (fun acc2 dest =>
        { acc2 with
            data_flow_map := adjInsert acc2.data_flow_map a dest
            reverse_data_flow_map := adjInsert acc2.reverse_data_flow_map dest a }) gg).reverse_data_flow_map =
      rebuildAdj (bs.map (fun b => (b, a))) gg.reverse_data_flow_map ∧
    (bs.foldl (fun acc2 dest =>
        { acc2 with
            data_flow_map := adjInsert acc2.data_flow_map a dest
            reverse_data_flow_map := adjInsert acc2.reverse_data_flow_map dest a }) gg).symbol_to_uid =
      gg.symbol_to_uid ∧
    (bs.foldl (fun acc2 dest =>
        { acc2 with
            data_flow_map := adjInsert acc2.data_flow_map a dest
            reverse_data_flow_map := adjInsert acc2.reverse_data_flow_map dest a }) gg).symbol_types =
      gg.symbol_types ∧
    (bs.foldl (fun acc2 dest =>
        { acc2 with
            data_flow_map := adjInsert acc2.data_flow_map a dest
            reverse_data_flow_map := adjInsert acc2.reverse_data_flow_map dest a }) gg).call_map =
      gg.call_map ∧
    (bs.foldl (fun acc2 dest =>
        { acc2 with
            data_flow_map := adjInsert acc2.data_flow_map a dest
            reverse_data_flow_map := adjInsert acc2.reverse_data_flow_map dest a }) gg).reverse_call_map =
      gg.reverse_call_map ∧
    (bs.foldl (fun acc2 dest =>
        { acc2 with
            data_flow_map := adjInsert acc2.data_flow_map a dest
            reverse_data_flow_map := adjInsert acc2.reverse_data_flow_map dest a }) gg).filepath_pool =
      gg.filepath_pool ∧
    (bs.foldl (fun acc2 dest =>
        { acc2 with
            data_flow_map := adjInsert acc2.data_flow_map a dest
            reverse_data_flow_map := adjInsert acc2.reverse_data_flow_map dest a }) gg).file_uid_to_path_idx =
      gg.file_uid_to_path_idx ∧
    (bs.foldl (fun acc2 dest =>
        { acc2 with
            data_flow_map := adjInsert acc2.data_flow_map a dest
            reverse_data_flow_map := adjInsert acc2.reverse_data_flow_map dest a }) gg).filepath_to_uid =
      gg.filepath_to_uid ∧
    (bs.foldl (fun acc2 dest =>
        { acc2 with
            data_flow_map := adjInsert acc2.data_flow_map a dest
            reverse_data_flow_map := adjInsert acc2.reverse_data_flow_map dest a }) gg).file_to_symbols =
      gg.file_to_symbols ∧
    (bs.foldl (fun acc2 dest =>
        { acc2 with
            data_flow_map := adjInsert acc2.data_flow_map a dest
            reverse_data_flow_map := adjInsert acc2.reverse_data_flow_map dest a }) gg).symbol_to_file =
      gg.symbol_to_file ∧
    (bs.foldl (fun acc2 dest =>
        { acc2 with
            data_flow_map := adjInsert acc2.data_flow_map a dest
            reverse_data_flow_map := adjInsert acc2.reverse_data_flow_map dest a }) gg).end_uid =
      gg.end_uid := by
  induction bs generalizing gg with
  | nil => simp [rebuildAdj]
  | cons b rest ih =>
    simp only [List.foldl_cons, List.map_cons, rebuildAdj] at ih ⊢
    exact ih _

theorem loadDataFlow_fields (e : List (Nat × List Nat)) (gg : CallGraph) :
    (loadDataFlow e gg).data_flow_map = rebuildAdj (edgePairs e) gg.data_flow_map ∧
    (loadDataFlow e gg).reverse_data_flow_map =
      rebuildAdj ((edgePairs e).map (fun q => (q.2, q.1))) gg.reverse_data_flow_map ∧
    (loadDataFlow e gg).symbol_to_uid = gg.symbol_to_uid ∧
    (loadDataFlow e gg).symbol_types = gg.symbol_types ∧
    (loadDataFlow e gg).call_map = gg.call_map ∧
    (loadDataFlow e gg).reverse_call_map = gg.reverse_call_map ∧
    (loadDataFlow e gg).filepath_pool = gg.filepath_pool ∧
    (loadDataFlow e gg).file_uid_to_path_idx = gg.file_uid_to_path_idx ∧
    (loadDataFlow e gg).filepath_to_uid = gg.filepath_to_uid ∧
    (loadDataFlow e gg).file_to_symbols = gg.file_to_symbols ∧
    (loadDataFlow e gg).symbol_to_file = gg.symbol_to_file ∧
    (loadDataFlow e gg).end_uid = gg.end_uid := by
  induction e generalizing gg with
  | nil => simp [loadDataFlow, rebuildAdj, edgePairs]
  | cons p rest ih =>
    have hinner := loadDataFlow_inner p.1 p.2 gg
    have hrest := ih (p.2.foldl (fun acc2 dest =>
      { acc2 with
          data_flow_map := adjInsert acc2.data_flow_map p.1 dest
          reverse_data_flow_map := adjInsert acc2.reverse_data_flow_map dest p.1 }) gg)
    have hstep : loadDataFlow (p :: rest) gg =
        loadDataFlow rest (p.2.foldl (fun acc2 dest =>
          { acc2 with
              data_flow_map := adjInsert acc2.data_flow_map p.1 dest
              reverse_data_flow_map := adjInsert acc2.reverse_data_flow_map dest p.1 }) gg) := by
      simp [loadDataFlow, List.foldl_cons]
    rw [hstep]
    rw [edgePairs_cons]
    refine ⟨?_, ?_, ?_, ?_, ?_, ?_, ?_, ?_, ?_, ?_, ?_, ?_⟩
    · rw [hrest.1, hinner.1, rebuildAdj_append]
    · rw [hrest.2.1, hinner.2.1, List.map_append, rebuildAdj_append, List.map_map]
      rfl
    · rw [hrest.2.2.1, hinner.2.2.1]
    · rw [hrest.2.2.2.1, hinner.2.2.2.1]
    · rw [hrest.2.2.2.2.1, hinner.2.2.2.2.1]
    · rw [hrest.2.2.2.2.2.1, hinner.2.2.2.2.2.1]
    · rw [hrest.2.2.2.2.2.2.1, hinner.2.2.2.2.2.2.1]
    · rw [hrest.2.2.2.2.2.2.2.1, hinner.2.2.2.2.2.2.2.1]
    · rw [hrest.2.2.2.2.2.2.2.2.1, hinner.2.2.2.2.2.2.2.2.1]
    · rw [hrest.2.2.2.2.2.2.2.2.2.1, hinner.2.2.2.2.2.2.2.2.2.1]
    · rw [hrest.2.2.2.2.2.2.2.2.2.2.1, hinner.2.2.2.2.2.2.2.2.2.2.1]
    · rw [hrest.2.2.2.2.2.2.2.2.2.2.2, hinner.2.2.2.2.2.2.2.2.2.2.2]

theorem loadFilePaths_fields (e : List (Nat × String)) (gg : CallGraph) :
    (loadFilePaths e gg).filepath_to_uid =
      rebuildAL (e.map (fun p => (p.2, p.1))) gg.filepath_to_uid ∧
    (loadFilePaths e gg).symbol_to_uid = gg.symbol_to_uid ∧
    (loadFilePaths e gg).symbol_types = gg.symbol_types ∧
    (loadFilePaths e gg).call_map = gg.call_map ∧
    (loadFilePaths e gg).reverse_call_map = gg.reverse_call_map ∧
    (loadFilePaths e gg).data_flow_map = gg.data_flow_map ∧
    (loadFilePaths e gg).reverse_data_flow_map = gg.reverse_data_flow_map ∧
    (loadFilePaths e gg).file_to_symbols = gg.file_to_symbols ∧
    (loadFilePaths e gg).symbol_to_file = gg.symbol_to_file ∧
    (loadFilePaths e gg).end_uid = gg.end_uid := by
  induction e generalizing gg with
  | nil => simp [loadFilePaths, rebuildAL]
  | cons p rest ih =>
    simp only [loadFilePaths, List.foldl_cons, List.map_cons, rebuildAL] at ih ⊢
    exact ih _

theorem mem_alInsert {α β : Type} [DecidableEq α] {m : List (α × β)} {k : α} {v : β}
    {q : α × β} (hq : q ∈ alInsert m k v) : q ∈ m ∨ q = (k, v) := by
  induction m with
  | nil =>
    simp [alInsert] at hq
    exact Or.inr hq
  | cons r rs ih =>
    obtain ⟨r1, r2⟩ := r
    by_cases hr : r1 = k
    · simp only [alInsert, if_pos hr] at hq
      rcases List.mem_cons.mp hq with h1 | h1
      · exact Or.inr (by rw [h1, hr])
      · exact Or.inl (List.mem_cons_of_mem _ h1)
    · simp only [alInsert, if_neg hr] at hq
      rcases List.mem_cons.mp hq with h1 | h1
      · exact Or.inl (by rw [h1]; exact List.mem_cons_self _ _)
      · rcases ih h1 with h2 | h2
        · exact Or.inl (List.mem_cons_of_mem _ h2)
        · exact Or.inr h2

theorem loadFilePaths_get (e : List (Nat × String)) (gg : CallGraph) (hnd : keysNodup e)
    (hvalid : ∀ q ∈ gg.file_uid_to_path_idx, q.2 < gg.filepath_pool.strings.length)
    (fuid : Nat) :
    fileGetCG (loadFilePaths e gg) fuid =
      match alLookup e fuid with
      | some path => path
      | none => fileGetCG gg fuid := by
  induction e generalizing gg with
  | nil => simp [loadFilePaths, alLookup]
  | cons p rest ih =>
    have hnd2 : keysNodup rest := (List.nodup_cons.mp hnd).2
    have hp0 : p.1 ∉ rest.map Prod.fst := (List.nodup_cons.mp hnd).1
    have hstep : loadFilePaths (p :: rest) gg =
        loadFilePaths rest
          { gg with
              filepath_pool := (gg.filepath_pool.intern p.2).1
              file_uid_to_path_idx :=
                alInsert gg.file_uid_to_path_idx p.1 (gg.filepath_pool.intern p.2).2
              filepath_to_uid := alInsert gg.filepath_to_uid p.2 p.1
              next_file_uid :=
                if p.1 ≥ gg.next_file_uid then p.1 + 1 else gg.next_file_uid } := by
      simp [loadFilePaths, List.foldl_cons]
    have hvalid2 : ∀ q ∈ alInsert gg.file_uid_to_path_idx p.1 (gg.filepath_pool.intern p.2).2,
        q.2 < ((gg.filepath_pool.intern p.2).1).strings.length := by
      intro q hq
      rcases mem_alInsert hq with h | h
      · exact lt_of_lt_of_le (hvalid q h) (StringPool.intern_len_mono gg.filepath_pool p.2)
      · rw [h]
        exact StringPool.intern_idx_lt gg.filepath_pool p.2
    rw [hstep, ih _ hnd2 hvalid2]
    by_cases hf : p.1 = fuid
    · subst hf
      have hrnone : alLookup rest p.1 = none := alLookup_eq_none.mpr hp0
      have hcons1 : alLookup (p :: rest : List (Nat × String)) p.1 = some p.2 := by
        rw [show (p :: rest : List (Nat × String)) = (p.1, p.2) :: rest by simp]
        simp [alLookup]
      rw [hrnone, hcons1]
      simp only [fileGetCG, alLookup_alInsert, if_pos rfl]
      exact StringPool.intern_get_self gg.filepath_pool p.2
    · have hcons2 : alLookup (p :: rest : List (Nat × String)) fuid = alLookup rest fuid := by
        rw [show (p :: rest : List (Nat × String)) = (p.1, p.2) :: rest by simp]
        simp [alLookup, hf]
      rw [hcons2]
      cases hx : alLookup rest fuid with
      | some path => simp
      | none =>
        simp only [fileGetCG, alLookup_alInsert, if_neg hf]
        cases hy : alLookup gg.file_uid_to_path_idx fuid with
        | none => simp
        | some idx =>
          simp only []
          exact StringPool.intern_get_stable gg.filepath_pool p.2
            (hvalid (fuid, idx) (alLookup_mem hy))

theorem loadUids_fields (e : List (String × Nat)) (gg : CallGraph) :
    (loadUids e gg).symbol_to_uid = rebuildAL e gg.symbol_to_uid ∧
    (loadUids e gg).symbol_types = gg.symbol_types ∧
    (loadUids e gg).call_map = gg.call_map ∧
    (loadUids e gg).reverse_call_map = gg.reverse_call_map ∧
    (loadUids e gg).data_flow_map = gg.data_flow_map ∧
    (loadUids e gg).reverse_data_flow_map = gg.reverse_data_flow_map ∧
    (loadUids e gg).filepath_pool = gg.filepath_pool ∧
    (loadUids e gg).file_uid_to_path_idx = gg.file_uid_to_path_idx ∧
    (loadUids e gg).filepath_to_uid = gg.filepath_to_uid ∧
    (loadUids e gg).file_to_symbols = gg.file_to_symbols ∧
    (loadUids e gg).symbol_to_file = gg.symbol_to_file ∧
    (loadUids e gg).end_uid = gg.end_uid := by
  induction e generalizing gg with
  | nil => simp [loadUids, rebuildAL]
  | cons p rest ih =>
    simp only [loadUids, List.foldl_cons, rebuildAL] at ih ⊢
    exact ih _

theorem loadTypes_fields (e : List (Nat × Nat)) (gg : CallGraph) :
    (loadTypes e gg).symbol_types =
      rebuildAL (e.map (fun p => (p.1, intToSymbolType p.2))) gg.symbol_types ∧
    (loadTypes e gg).symbol_to_uid = gg.symbol_to_uid ∧
    (loadTypes e gg).call_map = gg.call_map ∧
    (loadTypes e gg).reverse_call_map = gg.reverse_call_map ∧
    (loadTypes e gg).data_flow_map = gg.data_flow_map ∧
    (loadTypes e gg).reverse_data_flow_map = gg.reverse_data_flow_map ∧
    (loadTypes e gg).filepath_pool = gg.filepath_pool ∧
    (loadTypes e gg).file_uid_to_path_idx = gg.file_uid_to_path_idx ∧
    (loadTypes e gg).filepath_to_uid = gg.filepath_to_uid ∧
    (loadTypes e gg).file_to_symbols = gg.file_to_symbols ∧
    (loadTypes e gg).symbol_to_file = gg.symbol_to_file ∧
    (loadTypes e gg).end_uid = gg.end_uid := by
  induction e generalizing gg with
  | nil => simp [loadTypes, rebuildAL]
  | cons p rest ih =>
    simp only [loadTypes, List.foldl_cons, List.map_cons, rebuildAL] at ih ⊢
    exact ih _

theorem loadFileSymbols_fields (e : List (Nat × List Nat)) (gg : CallGraph) :
    (loadFileSymbols e gg).file_to_symbols = rebuildAL e gg.file_to_symbols ∧
    (loadFileSymbols e gg).symbol_to_uid = gg.symbol_to_uid ∧
    (loadFileSymbols e gg).symbol_types = gg.symbol_types ∧
    (loadFileSymbols e gg).call_map = gg.call_map ∧
    (loadFileSymbols e gg).reverse_call_map = gg.reverse_call_map ∧
    (loadFileSymbols e gg).data_flow_map = gg.data_flow_map ∧
    (loadFileSymbols e gg).reverse_data_flow_map = gg.reverse_data_flow_map ∧
    (loadFileSymbols e gg).filepath_pool = gg.filepath_pool ∧
    (loadFileSymbols e gg).file_uid_to_path_idx = gg.file_uid_to_path_idx ∧
    (loadFileSymbols e gg).filepath_to_uid = gg.filepath_to_uid ∧
    (loadFileSymbols e gg).symbol_to_file = gg.symbol_to_file ∧
    (loadFileSymbols e gg).end_uid = gg.end_uid := by
  induction e generalizing gg with
  | nil => simp [loadFileSymbols, rebuildAL]
  | cons p rest ih =>
    simp only [loadFileSymbols, List.foldl_cons, rebuildAL] at ih ⊢
    exact ih _

theorem loadSymbolFiles_fields (e : List (Nat × Nat)) (gg : CallGraph) :
    (loadSymbolFiles e gg).symbol_to_file = rebuildAL e gg.symbol_to_file ∧
    (loadSymbolFiles e gg).symbol_to_uid = gg.symbol_to_uid ∧
    (loadSymbolFiles e gg).symbol_types = gg.symbol_types ∧
    (loadSymbolFiles e gg).call_map = gg.call_map ∧
    (loadSymbolFiles e gg).reverse_call_map = gg.reverse_call_map ∧
    (loadSymbolFiles e gg).data_flow_map = gg.data_flow_map ∧
    (loadSymbolFiles e gg).reverse_data_flow_map = gg.reverse_data_flow_map ∧
    (loadSymbolFiles e gg).filepath_pool = gg.filepath_pool ∧
    (loadSymbolFiles e gg).file_uid_to_path_idx = gg.file_uid_to_path_idx ∧
    (loadSymbolFiles e gg).filepath_to_uid = gg.filepath_to_uid ∧
    (loadSymbolFiles e gg).file_to_symbols = gg.file_to_symbols ∧
    (loadSymbolFiles e gg).end_uid = gg.end_uid := by
  induction e generalizing gg with
  | nil => simp [loadSymbolFiles, rebuildAL]
  | cons p rest ih =>
    simp only [loadSymbolFiles, List.foldl_cons, rebuildAL] at ih ⊢
    exact ih _

theorem alLookup_rebuild_self {α β : Type} [DecidableEq α] (l : List (α × β)) (k : α)
    (hnd : keysNodup l) : alLookup (rebuildAL l []) k = alLookup l k := by
  rw [alLookup_rebuildAL _ _ _ hnd]
  cases hx : alLookup l k <;> simp [alLookup]

theorem alLookup_types_roundtrip (l : List (Nat × SymbolType)) (hnd : keysNodup l)
    (uid : Nat) :
    alLookup (rebuildAL ((l.map (fun p => (p.1, symbolTypeToInt p.2))).map
      (fun p => (p.1, intToSymbolType p.2))) []) uid = alLookup l uid := by
  rw [List.map_map]
  have hc : ((fun p : Nat × Nat => (p.1, intToSymbolType p.2)) ∘
      (fun p : Nat × SymbolType => (p.1, symbolTypeToInt p.2))) =
      (fun p : Nat × SymbolType => (p.1, intToSymbolType (symbolTypeToInt p.2))) := rfl
  rw [hc]
  have hnd2 : keysNodup (l.map (fun p : Nat × SymbolType =>
      (p.1, intToSymbolType (symbolTypeToInt p.2)))) :=
    keysNodup_map_value l (fun v => intToSymbolType (symbolTypeToInt v)) hnd
  rw [alLookup_rebuild_self _ _ hnd2,
    alLookup_map_value l (fun v => intToSymbolType (symbolTypeToInt v)) uid]
  simp only [intToSymbolType_symbolTypeToInt]
  cases hx : alLookup l uid <;> simp

theorem adjMem_loaded {l : List (Nat × List Nat)} (hnd : keysNodup l) (a b : Nat) :
    adjMem (rebuildAdj (edgePairs l) []) a b ↔ adjMem l a b := by
  rw [adjMem_rebuildAdj]
  have : adjMem ([] : List (Nat × List Nat)) a b ↔ False := by
    simp [adjMem, alLookup]
  rw [this, or_false, edgePairs_adjMem hnd]

theorem adjMem_loaded_rev {l : List (Nat × List Nat)} (hnd : keysNodup l) (a b : Nat) :
    adjMem (rebuildAdj ((edgePairs l).map (fun q => (q.2, q.1))) []) a b ↔ adjMem l b a := by
  rw [adjMem_rebuildAdj]
  have h0 : adjMem ([] : List (Nat × List Nat)) a b ↔ False := by
    simp [adjMem, alLookup]
  rw [h0, or_false]
  have hswap : (a, b) ∈ (edgePairs l).map (fun q => (q.2, q.1)) ↔ (b, a) ∈ edgePairs l := by
    rw [List.mem_map]
    constructor
    · rintro ⟨q, hq, he⟩
      obtain ⟨he1, he2⟩ := Prod.mk.injEq .. ▸ he
      rw [← he1, ← he2]
      simpa using hq
    · intro hq
      exact ⟨(b, a), hq, rfl⟩
  rw [hswap, edgePairs_adjMem hnd]

theorem data_consistent_iff (g : Graph) (h : g.dataConsistent) (a b : Nat) :
    b ∈ g.get_data_sinks a ↔ a ∈ g.get_data_sources b := by
  constructor
  · intro hb
    unfold Graph.get_data_sinks at hb
    cases hx : alLookup g.call_graph.data_flow_map a with
    | none => rw [hx] at hb; simp at hb
    | some l =>
      rw [hx] at hb
      simp at hb
      exact h.1 (a, l) (alLookup_mem hx) b hb
  · intro ha
    unfold Graph.get_data_sources at ha
    cases hx : alLookup g.call_graph.reverse_data_flow_map b with
    | none => rw [hx] at ha; simp at ha
    | some l =>
      rw [hx] at ha
      simp at ha
      exact h.2 (b, l) (alLookup_mem hx) a ha

theorem fileGetCG_congr {cg1 cg2 : CallGraph}
    (hidx : cg1.file_uid_to_path_idx = cg2.file_uid_to_path_idx)
    (hpool : cg1.filepath_pool = cg2.filepath_pool) (fuid : Nat) :
    fileGetCG cg1 fuid = fileGetCG cg2 fuid := by
  unfold fileGetCG
  rw [hidx, hpool]

/-- C2.  Full-mode load of a saved graph reproduces the graph up to set
iteration order: the name table, the symbol types, the four edge sets,
the file tables and end_uid of the loaded graph agree with the original.
The hypotheses are facts every graph produced by indexing and
finalization satisfies: map keys are unique, forward and reverse edge
maps agree (invariant I2), and the path table mirrors the file-uid
table. -/
theorem claim_C2_save_load_round_trip (g : Graph)
    (h1 : keysNodup g.call_graph.symbol_to_uid)
    (h2 : keysNodup g.call_graph.symbol_types)
    (h3 : keysNodup g.call_graph.call_map)
    (h5 : keysNodup g.call_graph.data_flow_map)
    (h7 : keysNodup g.call_graph.file_uid_to_path_idx)
    (h8 : keysNodup g.call_graph.file_to_symbols)
    (h9 : keysNodup g.call_graph.symbol_to_file)
    (h10 : keysNodup g.call_graph.filepath_to_uid)
    (hcons : g.callConsistent)
    (hdcons : g.dataConsistent)
    (hpaths : g.call_graph.filepath_to_uid =
      g.call_graph.file_uid_to_path_idx.map
        (fun q => (g.call_graph.filepath_pool.get q.2, q.1))) :
    Graph.loadFull g.save = Except.ok (loadSections g.save) ∧
    (∀ name, alLookup (loadSections g.save).call_graph.symbol_to_uid name =
      alLookup g.call_graph.symbol_to_uid name) ∧
    (∀ uid, alLookup (loadSections g.save).call_graph.symbol_types uid =
      alLookup g.call_graph.symbol_types uid) ∧
    (∀ a b, b ∈ (loadSections g.save).get_callees a ↔ b ∈ g.get_callees a) ∧
    (∀ a b, b ∈ (loadSections g.save).get_callers a ↔ b ∈ g.get_callers a) ∧
    (∀ a b, b ∈ (loadSections g.save).get_data_sinks a ↔ b ∈ g.get_data_sinks a) ∧
    (∀ a b, b ∈ (loadSections g.save).get_data_sources a ↔ b ∈ g.get_data_sources a) ∧
    (∀ fuid, (loadSections g.save).get_file_path fuid = g.get_file_path fuid) ∧
    (∀ path, alLookup (loadSections g.save).call_graph.filepath_to_uid path =
      alLookup g.call_graph.filepath_to_uid path) ∧
    (∀ fuid, alLookup (loadSections g.save).call_graph.file_to_symbols fuid =
      alLookup g.call_graph.file_to_symbols fuid) ∧
    (∀ uid, alLookup (loadSections g.save).call_graph.symbol_to_file uid =
      alLookup g.call_graph.symbol_to_file uid) ∧
    (loadSections g.save).call_graph.end_uid = g.call_graph.end_uid := by
  obtain ⟨hU1, hU2, hU3, hU4, hU5, hU6, hU7, hU8, hU9, hU10, hU11, hU12⟩ :=
    loadUids_fields (Graph.save g).uids
      { CallGraph.empty with end_uid := (Graph.save g).end_uid }
  obtain ⟨hT1, hT2, hT3, hT4, hT5, hT6, hT7, hT8, hT9, hT10, hT11, hT12⟩ :=
    loadTypes_fields (Graph.save g).symbol_types
      (loadUids (Graph.save g).uids
        { CallGraph.empty with end_uid := (Graph.save g).end_uid })
  obtain ⟨hC1, hC2, hC3, hC4, hC5, hC6, hC7, hC8, hC9, hC10, hC11, hC12⟩ :=
    loadCallMapping_fields (Graph.save g).call_mapping
      (loadTypes (Graph.save g).symbol_types
        (loadUids (Graph.save g).uids
          { CallGraph.empty with end_uid := (Graph.save g).end_uid }))
  obtain ⟨hD1, hD2, hD3, hD4, hD5, hD6, hD7, hD8, hD9, hD10, hD11, hD12⟩ :=
    loadDataFlow_fields (Graph.save g).data_flow
      (loadCallMapping (Graph.save g).call_mapping
        (loadTypes (Graph.save g).symbol_types
          (loadUids (Graph.save g).uids
            { CallGraph.empty with end_uid := (Graph.save g).end_uid })))
  obtain ⟨hP1, hP2, hP3, hP4, hP5, hP6, hP7, hP8, hP9, hP10⟩ :=
    loadFilePaths_fields (Graph.save g).file_paths
      (loadDataFlow (Graph.save g).data_flow
        (loadCallMapping (Graph.save g).call_mapping
          (loadTypes (Graph.save g).symbol_types
            (loadUids (Graph.save g).uids
              { CallGraph.empty with end_uid := (Graph.save g).end_uid }))))
  obtain ⟨hF1, hF2, hF3, hF4, hF5, hF6, hF7, hF8, hF9, hF10, hF11, hF12⟩ :=
    loadFileSymbols_fields (Graph.save g).file_symbols
      (loadFilePaths (Graph.save g).file_paths
        (loadDataFlow (Graph.save g).data_flow
          (loadCallMapping (Graph.save g).call_mapping
            (loadTypes (Graph.save g).symbol_types
              (loadUids (Graph.save g).uids
                { CallGraph.empty with end_uid := (Graph.save g).end_uid })))))
  obtain ⟨hS1, hS2, hS3, hS4, hS5, hS6, hS7, hS8, hS9, hS10, hS11, hS12⟩ :=
    loadSymbolFiles_fields (Graph.save g).symbol_files
      (loadFileSymbols (Graph.save g).file_symbols
        (loadFilePaths (Graph.save g).file_paths
          (loadDataFlow (Graph.save g).data_flow
            (loadCallMapping (Graph.save g).call_mapping
              (loadTypes (Graph.save g).symbol_types
                (loadUids (Graph.save g).uids
                  { CallGraph.empty with end_uid := (Graph.save g).end_uid }))))))
  have hcg : (loadSections (Graph.save g)).call_graph =
      loadSymbolFiles (Graph.save g).symbol_files
        (loadFileSymbols (Graph.save g).file_symbols
          (loadFilePaths (Graph.save g).file_paths
            (loadDataFlow (Graph.save g).data_flow
              (loadCallMapping (Graph.save g).call_mapping
                (loadTypes (Graph.save g).symbol_types
                  (loadUids (Graph.save g).uids
                    { CallGraph.empty with end_uid := (Graph.save g).end_uid })))))) := rfl
  refine ⟨rfl, ?_, ?_, ?_, ?_, ?_, ?_, ?_, ?_, ?_, ?_, ?_⟩
  · intro name
    rw [hcg, hS2, hF2, hP2, hD3, hC3, hT2, hU1]
    exact alLookup_rebuild_self g.call_graph.symbol_to_uid name h1
  · intro uid
    rw [hcg, hS3, hF3, hP3, hD4, hC4, hT1, hU2]
    exact alLookup_types_roundtrip g.call_graph.symbol_types h2 uid
  · intro a b
    show adjMem (loadSections (Graph.save g)).call_graph.call_map a b ↔
      adjMem g.call_graph.call_map a b
    rw [hcg, hS4, hF4, hP4, hD5, hC1, hT3, hU3]
    exact adjMem_loaded h3 a b
  · intro a b
    show adjMem (loadSections (Graph.save g)).call_graph.reverse_call_map a b ↔
      adjMem g.call_graph.reverse_call_map a b
    rw [hcg, hS5, hF5, hP5, hD6, hC2, hT4, hU4]
    exact (adjMem_loaded_rev h3 a b).trans (call_consistent_iff g hcons b a)
  · intro a b
    show adjMem (loadSections (Graph.save g)).call_graph.data_flow_map a b ↔
      adjMem g.call_graph.data_flow_map a b
    rw [hcg, hS6, hF6, hP6, hD1, hC5, hT5, hU5]
    exact adjMem_loaded h5 a b
  · intro a b
    show adjMem (loadSections (Graph.save g)).call_graph.reverse_data_flow_map a b ↔
      adjMem g.call_graph.reverse_data_flow_map a b
    rw [hcg, hS7, hF7, hP7, hD2, hC6, hT6, hU6]
    exact (adjMem_loaded_rev h5 a b).trans (data_consistent_iff g hdcons b a)
  · intro fuid
    show fileGetCG (loadSections (Graph.save g)).call_graph fuid = fileGetCG g.call_graph fuid
    rw [hcg]
    have hidx4 : (loadDataFlow (Graph.save g).data_flow
        (loadCallMapping (Graph.save g).call_mapping
          (loadTypes (Graph.save g).symbol_types
            (loadUids (Graph.save g).uids
              { CallGraph.empty with
                  end_uid := (Graph.save g).end_uid })))).file_uid_to_path_idx = [] := by
      rw [hD8, hC8, hT8, hU8]
      rfl
    have hfold : fileGetCG (loadSymbolFiles (Graph.save g).symbol_files
        (loadFileSymbols (Graph.save g).file_symbols
          (loadFilePaths (Graph.save g).file_paths
            (loadDataFlow (Graph.save g).data_flow
              (loadCallMapping (Graph.save g).call_mapping
                (loadTypes (Graph.save g).symbol_types
                  (loadUids (Graph.save g).uids
                    { CallGraph.empty with end_uid := (Graph.save g).end_uid }))))))) fuid =
        fileGetCG (loadFilePaths (Graph.save g).file_paths
          (loadDataFlow (Graph.save g).data_flow
            (loadCallMapping (Graph.save g).call_mapping
              (loadTypes (Graph.save g).symbol_types
                (loadUids (Graph.save g).uids
                  { CallGraph.empty with end_uid := (Graph.save g).end_uid }))))) fuid :=
      fileGetCG_congr (by rw [hS9, hF9]) (by rw [hS8, hF8]) fuid
    rw [hfold]
    have hnd : keysNodup (Graph.save g).file_paths :=
      keysNodup_map_value g.call_graph.file_uid_to_path_idx
        (fun v => g.call_graph.filepath_pool.get v) h7
    have hvalid : ∀ q ∈ (loadDataFlow (Graph.save g).data_flow
        (loadCallMapping (Graph.save g).call_mapping
          (loadTypes (Graph.save g).symbol_types
            (loadUids (Graph.save g).uids
              { CallGraph.empty with
                  end_uid := (Graph.save g).end_uid })))).file_uid_to_path_idx,
        q.2 < (loadDataFlow (Graph.save g).data_flow
          (loadCallMapping (Graph.save g).call_mapping
            (loadTypes (Graph.save g).symbol_types
              (loadUids (Graph.save g).uids
                { CallGraph.empty with
                    end_uid := (Graph.save g).end_uid })))).filepath_pool.strings.length := by
      intro q hq
      rw [hidx4] at hq
      simp at hq
    rw [loadFilePaths_get (Graph.save g).file_paths _ hnd hvalid fuid]
    have hlk : alLookup (Graph.save g).file_paths fuid =
        (alLookup g.call_graph.file_uid_to_path_idx fuid).map
          (fun v => g.call_graph.filepath_pool.get v) :=
      alLookup_map_value g.call_graph.file_uid_to_path_idx
        (fun v => g.call_graph.filepath_pool.get v) fuid
    rw [hlk]
    have hg4 : fileGetCG (loadDataFlow (Graph.save g).data_flow
        (loadCallMapping (Graph.save g).call_mapping
          (loadTypes (Graph.save g).symbol_types
            (loadUids (Graph.save g).uids
              { CallGraph.empty with end_uid := (Graph.save g).end_uid })))) fuid = "" := by
      unfold fileGetCG
      rw [hidx4]
      simp [alLookup]
    cases hx : alLookup g.call_graph.file_uid_to_path_idx fuid with
    | none =>
      simp only [Option.map_none']
      rw [hg4]
      unfold fileGetCG
      rw [hx]
    | some idx =>
      simp only [Option.map_some']
      unfold fileGetCG
      rw [hx]
  · intro path
    rw [hcg, hS10, hF10, hP1, hD9, hC9, hT9, hU9]
    have hmap : ((Graph.save g).file_paths.map (fun p => (p.2, p.1))) =
        g.call_graph.filepath_to_uid := by
      rw [hpaths]
      show ((g.call_graph.file_uid_to_path_idx.map
          (fun p => (p.1, g.call_graph.filepath_pool.get p.2))).map
          (fun p => (p.2, p.1))) = _
      rw [List.map_map]
      rfl
    rw [hmap]
    exact alLookup_rebuild_self g.call_graph.filepath_to_uid path h10
  · intro fuid
    rw [hcg, hS11, hF1, hP8, hD10, hC10, hT10, hU10]
    exact alLookup_rebuild_self g.call_graph.file_to_symbols fuid h8
  · intro uid
    rw [hcg, hS1, hF11, hP9, hD11, hC11, hT11, hU11]
    exact alLookup_rebuild_self g.call_graph.symbol_to_file uid h9
  · rw [hcg, hS12, hF12, hP10, hD12, hC12, hT12, hU12]
    rfl

/- ===================== finalize lemmas ===================== -/

theorem alInsert_append {α β : Type} [DecidableEq α] {m : List (α × β)} {k : α} (v : β)
    (h : alLookup m k = none) : alInsert m k v = m ++ [(k, v)] := by
  induction m with
  | nil => rfl
  | cons p rest ih =>
    obtain ⟨k0, v0⟩ := p
    by_cases h0 : k0 = k
    · simp [alLookup, h0] at h
    · simp only [alLookup, if_neg h0] at h
      simp only [alInsert, if_neg h0, List.cons_append]
      rw [ih h]

/-- The zeta-expanded body of CallGraph.finalize. -/
theorem CallGraph.finalize_def (cg : CallGraph) :
    cg.finalize =
      (((alInsert cg.symbol_to_uid "END" cg.next_uid).map Prod.snd).filter
        (fun uid => decide (uid ≠ cg.next_uid) &&
          decide (({ cg with
              next_uid := cg.next_uid + 1
              end_uid := cg.next_uid
              symbol_pool := (cg.symbol_pool.intern "END").1
              symbol_to_uid := alInsert cg.symbol_to_uid "END" cg.next_uid
              uid_to_string_idx :=
                alInsert cg.uid_to_string_idx cg.next_uid (cg.symbol_pool.intern "END").2
              symbol_types :=
                alInsert cg.symbol_types cg.next_uid SymbolType.End } : CallGraph).get_type uid
            = SymbolType.Function))).foldl
        (fun acc uid =>
          if (alLookup acc.call_map uid).getD [] = [] then acc.add_call uid cg.next_uid
          else acc)
        { cg with
            next_uid := cg.next_uid + 1
            end_uid := cg.next_uid
            symbol_pool := (cg.symbol_pool.intern "END").1
            symbol_to_uid := alInsert cg.symbol_to_uid "END" cg.next_uid
            uid_to_string_idx :=
              alInsert cg.uid_to_string_idx cg.next_uid (cg.symbol_pool.intern "END").2
            symbol_types := alInsert cg.symbol_types cg.next_uid SymbolType.End } := rfl

theorem foldAddCall_end_uid (e : Nat) (L : List Nat) (acc : CallGraph) :
    (L.foldl (fun acc2 uid =>
      if (alLookup acc2.call_map uid).getD [] = [] then acc2.add_call uid e else acc2)
      acc).end_uid = acc.end_uid := by
  induction L generalizing acc with
  | nil => rfl
  | cons u L ih =>
    rw [List.foldl_cons, ih]
    split <;> rfl

theorem adjInsert_lookup_other {α : Type} [DecidableEq α] (m : List (α × List α))
    {k u : α} (x : α) (h : k ≠ u) : alLookup (adjInsert m k x) u = alLookup m u := by
  unfold adjInsert
  rw [alLookup_alInsert]
  simp [h]

theorem foldAddCall_callees (e : Nat) (L : List Nat) (acc : CallGraph)
    (hacce : alLookup acc.call_map e = none) (hLe : e ∉ L) :
    alLookup ((L.foldl (fun acc2 uid =>
        if (alLookup acc2.call_map uid).getD [] = [] then acc2.add_call uid e else acc2)
      acc)).call_map e = none ∧
    ∀ u, (alLookup ((L.foldl (fun acc2 uid =>
        if (alLookup acc2.call_map uid).getD [] = [] then acc2.add_call uid e else acc2)
      acc)).call_map u).getD [] =
      (if u ∈ L ∧ (alLookup acc.call_map u).getD [] = [] then [e]
       else (alLookup acc.call_map u).getD []) := by
  induction L generalizing acc with
  | nil =>
    refine ⟨hacce, ?_⟩
    intro u
    simp
  | cons u0 L ih =>
    have hu0e : u0 ≠ e := fun h => hLe (h ▸ List.mem_cons_self u0 L)
    have hLe2 : e ∉ L := fun h => hLe (List.mem_cons_of_mem _ h)
    rw [List.foldl_cons]
    by_cases hemp : (alLookup acc.call_map u0).getD [] = []
    · rw [if_pos hemp]
      have hacce2 : alLookup (acc.add_call u0 e).call_map e = none := by
        show alLookup (adjInsert acc.call_map u0 e) e = none
        rw [adjInsert_lookup_other _ _ hu0e]
        exact hacce
      obtain ⟨ihe, ihu⟩ := ih (acc.add_call u0 e) hacce2 hLe2
      refine ⟨ihe, ?_⟩
      intro u
      rw [ihu u]
      by_cases hu : u = u0
      · subst hu
        have hl : (alLookup (acc.add_call u e).call_map u).getD [] = [e] := by
          show (alLookup (adjInsert acc.call_map u e) u).getD [] = [e]
          unfold adjInsert
          rw [alLookup_alInsert]
          simp only [if_pos rfl, Option.getD_some]
          rw [hemp]
          rfl
        rw [hl]
        have hc1 : ¬ (u ∈ L ∧ ([e] : List Nat) = []) := by
          rintro ⟨-, h⟩
          simp at h
        rw [if_neg hc1, if_pos ⟨List.mem_cons_self u L, hemp⟩]
      · have hother : (alLookup (acc.add_call u0 e).call_map u).getD [] =
            (alLookup acc.call_map u).getD [] := by
          show (alLookup (adjInsert acc.call_map u0 e) u).getD [] = _
          rw [adjInsert_lookup_other _ _ (fun h => hu h.symm)]
        rw [hother]
        have hmem : (u ∈ u0 :: L) ↔ u ∈ L := by simp [hu]
        by_cases hcase : u ∈ L ∧ (alLookup acc.call_map u).getD [] = []
        · rw [if_pos hcase, if_pos ⟨hmem.symm.mp hcase.1, hcase.2⟩]
        · rw [if_neg hcase, if_neg (fun hc => hcase ⟨hmem.mp hc.1, hc.2⟩)]
    · rw [if_neg hemp]
      obtain ⟨ihe, ihu⟩ := ih acc hacce hLe2
      refine ⟨ihe, ?_⟩
      intro u
      rw [ihu u]
      by_cases hu : u = u0
      · have hc1 : ¬ (u ∈ L ∧ (alLookup acc.call_map u).getD [] = []) := by
          rintro ⟨-, h⟩
          rw [hu] at h
          exact hemp h
        have hc2 : ¬ (u ∈ u0 :: L ∧ (alLookup acc.call_map u).getD [] = []) := by
          rintro ⟨-, h⟩
          rw [hu] at h
          exact hemp h
        rw [if_neg hc1, if_neg hc2]
      · have hmem : (u ∈ u0 :: L) ↔ u ∈ L := by simp [hu]
        by_cases hcase : u ∈ L ∧ (alLookup acc.call_map u).getD [] = []
        · rw [if_pos hcase, if_pos ⟨hmem.symm.mp hcase.1, hcase.2⟩]
        · rw [if_neg hcase, if_neg (fun hc => hcase ⟨hmem.mp hc.1, hc.2⟩)]

/-- C4.  After finalize, the END uid has no outgoing call edges; every
symbol of type Function either already had an outgoing call edge (its
adjacency is untouched) or now has exactly the single edge to end_uid;
symbols of any other type (Variable in particular) keep their adjacency
unchanged even when it is empty.  The hypotheses are build-time
invariants: no call edge leaves the still-unallocated END uid, the name
END is not yet taken, and every symbol uid is below next_uid (I5). -/
theorem claim_C4_finalize_leaf_edges (g : Graph)
    (hEkey : alLookup g.call_graph.call_map g.call_graph.next_uid = none)
    (hEname : alLookup g.call_graph.symbol_to_uid "END" = none)
    (hbound : ∀ p ∈ g.call_graph.symbol_to_uid, p.2 < g.call_graph.next_uid) :
    g.finalize.end_uid = g.call_graph.next_uid ∧
    g.finalize.get_callees g.finalize.end_uid = [] ∧
    ∀ p ∈ g.call_graph.symbol_to_uid,
      (g.call_graph.get_type p.2 = SymbolType.Function →
        (g.get_callees p.2 = [] ∧ g.finalize.get_callees p.2 = [g.call_graph.next_uid]) ∨
        (g.get_callees p.2 ≠ [] ∧ g.finalize.get_callees p.2 = g.get_callees p.2)) ∧
      (g.call_graph.get_type p.2 ≠ SymbolType.Function →
        g.finalize.get_callees p.2 = g.get_callees p.2) := by
  set cg := g.call_graph with hcgdef
  set e := cg.next_uid with he
  set g1 : CallGraph :=
    { cg with
        next_uid := e + 1
        end_uid := e
        symbol_pool := (cg.symbol_pool.intern "END").1
        symbol_to_uid := alInsert cg.symbol_to_uid "END" e
        uid_to_string_idx := alInsert cg.uid_to_string_idx e (cg.symbol_pool.intern "END").2
        symbol_types := alInsert cg.symbol_types e SymbolType.End } with hg1
  set pred : Nat → Bool :=
    fun uid => decide (uid ≠ e) && decide (g1.get_type uid = SymbolType.Function) with hpred
  set leaves : List Nat :=
    ((alInsert cg.symbol_to_uid "END" e).map Prod.snd).filter pred with hleaves
  have hfin : cg.finalize = leaves.foldl
      (fun acc uid =>
        if (alLookup acc.call_map uid).getD [] = [] then acc.add_call uid e else acc) g1 :=
    CallGraph.finalize_def cg
  have hLe : e ∉ leaves := by
    intro hmem
    have hpd := (List.mem_filter.mp hmem).2
    rw [hpred] at hpd
    simp at hpd
  have hfold := foldAddCall_callees e leaves g1 (by exact hEkey) hLe
  have hend : cg.finalize.end_uid = e := by
    rw [hfin, foldAddCall_end_uid]
  refine ⟨hend, ?_, ?_⟩
  · show (alLookup cg.finalize.call_map cg.finalize.end_uid).getD [] = []
    rw [hend, hfin, hfold.1]
    rfl
  · intro p hp
    have hne : p.2 ≠ e := Nat.ne_of_lt (hbound p hp)
    have htype1 : g1.get_type p.2 = cg.get_type p.2 := by
      unfold CallGraph.get_type
      have hlk : alLookup g1.symbol_types p.2 = alLookup cg.symbol_types p.2 := by
        show alLookup (alInsert cg.symbol_types e SymbolType.End) p.2 = _
        rw [alLookup_alInsert, if_neg (fun h => hne h.symm)]
      rw [hlk]
    constructor
    · intro hFun
      have hpredp : pred p.2 = true := by
        rw [hpred]
        simp only [Bool.and_eq_true, decide_eq_true_eq]
        exact ⟨hne, htype1 ▸ hFun⟩
      have hinlv : p.2 ∈ leaves := by
        rw [hleaves]
        refine List.mem_filter.mpr ⟨?_, hpredp⟩
        rw [alInsert_append _ hEname, List.map_append]
        exact List.mem_append_left _ (List.mem_map.mpr ⟨p, hp, rfl⟩)
      have hform := hfold.2 p.2
      by_cases hempty : (alLookup cg.call_map p.2).getD [] = []
      · left
        refine ⟨hempty, ?_⟩
        show (alLookup cg.finalize.call_map p.2).getD [] = [e]
        rw [hfin, hform, if_pos ⟨hinlv, by exact hempty⟩]
      · right
        refine ⟨hempty, ?_⟩
        show (alLookup cg.finalize.call_map p.2).getD [] = (alLookup cg.call_map p.2).getD []
        rw [hfin, hform, if_neg (fun hc => hempty (by exact hc.2))]
    · intro hnotFun
      have hnotin : p.2 ∉ leaves := by
        intro hmem
        have hpd := (List.mem_filter.mp hmem).2
        rw [hpred] at hpd
        simp only [Bool.and_eq_true, decide_eq_true_eq] at hpd
        exact hnotFun (htype1 ▸ hpd.2)
      show (alLookup cg.finalize.call_map p.2).getD [] = (alLookup cg.call_map p.2).getD []
      rw [hfin, hfold.2 p.2, if_neg (fun hc => hnotin hc.1)]

/-- Witness for C4: the build-time graph exGraphRtPre satisfies the three
invariants, and its finalization pins end_uid to the old next_uid. -/
theorem claim_C4_finalize_leaf_edges_witness :
    alLookup exGraphRtPre.call_graph.call_map exGraphRtPre.call_graph.next_uid = none ∧
    alLookup exGraphRtPre.call_graph.symbol_to_uid "END" = none ∧
    (∀ p ∈ exGraphRtPre.call_graph.symbol_to_uid,
      p.2 < exGraphRtPre.call_graph.next_uid) ∧
    exGraphRtPre.finalize.end_uid = exGraphRtPre.call_graph.next_uid :=
  ⟨by decide, by decide, by decide,
    (claim_C4_finalize_leaf_edges exGraphRtPre (by decide) (by decide) (by decide)).1⟩

/-- C6 counterexample: symbol f is first attached to file a.c (file uid 1);
a repeated add_symbol with path b.c (file uid 2) does return the old
symbol uid 1, but rewrites the provenance symbol_to_file entry of uid 1
from file 1 to file 2 - the last attachment wins, not the first. -/
theorem claim_C6_counterexample :
    alLookup c6graph1.call_graph.symbol_to_file 1 = some 1 ∧
    (c6graph1.add_symbol_file "f" "b.c" SymbolType.Function).2 = 1 ∧
    alLookup c6graph2.call_graph.symbol_to_file 1 = some 2 := by
  decide

/-- C6 amended: a repeated add_symbol(name, path, type) for a name that
already has uid u returns u and leaves the name table unchanged, but
unconditionally overwrites the stored type with the new type argument and
the file provenance of u with the new path's file uid, and appends u to
the new file's symbol list (graph.cpp lines 69-79: the symbol_to_file
assignment and file_to_symbols push_back run on every call). -/
theorem claim_C6_amended (g : Graph) (name path : String) (t : SymbolType) (u : Nat)
    (hu : alLookup g.call_graph.symbol_to_uid name = some u) :
    (g.add_symbol_file name path t).2 = u ∧
    alLookup (g.add_symbol_file name path t).1.call_graph.symbol_types u = some t ∧
    alLookup (g.add_symbol_file name path t).1.call_graph.symbol_to_file u =
      some (g.get_or_create_file_uid path).2 ∧
    alLookup (g.add_symbol_file name path t).1.call_graph.file_to_symbols
        (g.get_or_create_file_uid path).2 =
      some ((alLookup g.call_graph.file_to_symbols
        (g.get_or_create_file_uid path).2).getD [] ++ [u]) ∧
    (g.add_symbol_file name path t).1.call_graph.symbol_to_uid =
      g.call_graph.symbol_to_uid := by
  unfold Graph.add_symbol_file Graph.add_symbol CallGraph.get_or_create_uid
    Graph.get_or_create_file_uid
  rw [hu]
  cases h2 : alLookup g.call_graph.filepath_to_uid path with
  | some fuid => simp [h2, alLookup_alInsert]
  | none => simp [h2, alLookup_alInsert]

/-- Witness for C6 amended at the concrete repeated attachment. -/
theorem claim_C6_amended_witness :
    alLookup c6graph1.call_graph.symbol_to_uid "f" = some 1 ∧
    (c6graph1.add_symbol_file "f" "b.c" SymbolType.Function).2 = 1 :=
  ⟨by decide, (claim_C6_amended c6graph1 "f" "b.c" SymbolType.Function 1 (by decide)).1⟩

/-- C7 counterexample: version 1.5.0 has major 1, different from the
reader major 2, yet the loader accepts the file, because
is_schema_compatible also admits major 1 with minor at least 2. -/
theorem claim_C7_counterexample :
    parse_version "1.5.0" = some (1, 5, 0) ∧
    (1 : Int) ≠ INDEX_SCHEMA_MAJOR ∧
    is_schema_compatible 1 5 0 = true ∧
    Graph.loadFull c7file = Except.ok (loadSections c7file) := by
  refine ⟨by decide, by decide, by decide, ?_⟩
  rfl

/-- C7 amended: the compatibility predicate accepts exactly major 2 (any
minor) or major 1 with minor at least 2; whenever it rejects a parsed
version the loader fails with the message naming the file version. -/
theorem claim_C7_amended (f : SaveFile) (M m p : Int)
    (hp : parse_version f.version = some (M, m, p)) :
    (is_schema_compatible M m p = true ↔ (M = 2 ∨ (M = 1 ∧ 2 ≤ m))) ∧
    (is_schema_compatible M m p = false →
      Graph.loadFull f = Except.error
        ("Index file version " ++ f.version ++ " is not compatible. Please re-index.")) := by
  constructor
  · unfold is_schema_compatible INDEX_SCHEMA_MAJOR MIN_COMPAT_SCHEMA_MAJOR
      MIN_COMPAT_SCHEMA_MINOR
    split_ifs with hA hB hC
    · simp [hA]
    · simp only [Bool.false_eq_true, false_iff]
      push_neg
      exact ⟨fun h => absurd h hA, fun h => absurd h (by omega)⟩
    · simp only [true_iff]
      exact Or.inr hC
    · simp only [Bool.false_eq_true, false_iff]
      push_neg
      refine ⟨fun h => absurd h hA, fun h => ?_⟩
      by_contra hlt
      exact hC ⟨h, by omega⟩
  · intro hfalse
    unfold Graph.loadFull
    rw [hp]
    simp [hfalse]

/-- Witness for C7 at the scenario S6 file: version 0.9.0 parses, is
rejected, and loading fails with the schema message. -/
theorem claim_C7_amended_witness :
    parse_version c7fileOld.version = some (0, 9, 0) ∧
    Graph.loadFull c7fileOld = Except.error
      ("Index file version " ++ c7fileOld.version ++
        " is not compatible. Please re-index.") :=
  ⟨by decide, (claim_C7_amended c7fileOld 0 9 0 (by decide)).2 (by decide)⟩

/-- C8: the both-sentinels branch of find_paths is dead code. The START
test runs first, so a query with start START and end END is answered by
backtrace on END instead of the BadQueryShape diagnostic; on the
one-function graph it emits the path f END rather than an error. -/
theorem claim_C8_both_sentinels_branch_dead :
    (∀ (g : Graph) (cb : List String → Bool) (endS : String),
      g.find_paths cb "START" endS = g.backtrace cb endS) ∧
    Graph.find_paths exGraphOne cbTrue "START" "END" = Except.ok [["f", "END"]] := by
  constructor
  · intro g cb endS
    rfl
  · rfl

/-- C9 counterexample: the function-record short-name recording strips
only the C++ separator; for the dot-qualified name m.f the recorded key
is the full m.f, and a lookup under the tail segment f misses. -/
theorem claim_C9_counterexample :
    functionShortName "m.f" = "m.f" ∧
    recordShortNames ["m.f"] [] = [("m.f", "m.f")] ∧
    alLookup (recordShortNames ["m.f"] []) "f" = none := by
  decide

/-- C9 amended: the short-name lookup built by the function-record pass
is first-writer-wins over keys functionShortName q, where
functionShortName strips only the tail after the last two-colon
separator and never splits at a dot: a lookup finds the table's prior
binding if any, else the first record whose stripped name matches. -/
theorem claim_C9_amended (funcs : List String) (m0 : List (String × String)) (s : String) :
    alLookup (recordShortNames funcs m0) s =
      match alLookup m0 s with
      | some v => some v
      | none => funcs.find? (fun q => decide (functionShortName q = s)) := by
  induction funcs generalizing m0 with
  | nil =>
    cases h : alLookup m0 s with
    | some v => simp [recordShortNames, h]
    | none => simp [recordShortNames, h]
  | cons q funcs ih =>
    have hstep : recordShortNames (q :: funcs) m0 =
        recordShortNames funcs
          (match alLookup m0 (functionShortName q) with
           | some _ => m0
           | none => alInsert m0 (functionShortName q) q) := rfl
    rw [hstep]
    cases hq : alLookup m0 (functionShortName q) with
    | some w =>
      rw [ih]
      cases hs : alLookup m0 s with
      | some v => rfl
      | none =>
        have hne : functionShortName q ≠ s := by
          intro h
          rw [h] at hq
          rw [hq] at hs
          exact Option.noConfusion hs
        simp [List.find?, hne]
    | none =>
      rw [ih]
      by_cases hqs : functionShortName q = s
      · rw [hqs] at hq
        rw [hq, alLookup_alInsert, if_pos hqs]
        simp [List.find?, hqs]
      · rw [alLookup_alInsert, if_neg hqs]
        cases hs : alLookup m0 s with
        | some v => rfl
        | none => simp [List.find?, hqs]

/-- C10: when the version string of an index file fails parse_version,
both load paths skip the schema gate entirely: the full loader returns a
graph and the from_json gate reports success, for every such file. -/
theorem claim_C10_unparsable_version_skips_gate (f : SaveFile)
    (hp : parse_version f.version = none) :
    Graph.loadFull f = Except.ok (loadSections f) ∧
    from_json_version_gate f.version = Except.ok () := by
  constructor
  · unfold Graph.loadFull
    rw [hp]
  · unfold from_json_version_gate
    rw [hp]

/-- Witness for C10 at the file whose version string abc has no dots. -/
theorem claim_C10_witness :
    parse_version c10file.version = none ∧
    Graph.loadFull c10file = Except.ok (loadSections c10file) :=
  ⟨by decide, (claim_C10_unparsable_version_skips_gate c10file (by decide)).1⟩

/-- Witness for C2 at the concrete indexed-and-finalized graph. -/
theorem claim_C2_save_load_round_trip_witness :
    keysNodup exGraphRt.call_graph.symbol_to_uid ∧
    exGraphRt.callConsistent ∧
    Graph.loadFull exGraphRt.save = Except.ok (loadSections exGraphRt.save) :=
  ⟨by decide, by decide,
    (claim_C2_save_load_round_trip exGraphRt (by decide) (by decide) (by decide)
      (by decide) (by decide) (by decide) (by decide) (by decide) (by decide)
      (by decide) (by decide)).1⟩

/-- Witness for C3 at the mutual-recursion graph of scenario S4. -/
theorem claim_C3_bidirectional_equals_forward_witness :
    exGraphCyc.callAdjNodup ∧
    exGraphCyc.dfs_bidirectional cbTrue 1 2 = exGraphCyc.dfs_forward cbTrue 1 2 :=
  ⟨by decide,
    claim_C3_bidirectional_equals_forward exGraphCyc 1 2 (by decide) (by decide)
      (by decide) (by decide)⟩

/-- Witness for C5 at the mutual-recursion graph of scenario S4. -/
theorem claim_C5_termination_witness :
    exGraphCyc.callEdgesBounded ∧
    (exGraphCyc.dfs_forward cbTrue 1 2).Nodup ∧
    (exGraphCyc.dfs_bidirectional cbTrue 1 2).Nodup :=
  ⟨by decide,
    (claim_C5_termination_and_no_duplicates exGraphCyc cbTrue 1 2 (by decide)
      (by decide) (by decide) (by decide)).2.1,
    (claim_C5_termination_and_no_duplicates exGraphCyc cbTrue 1 2 (by decide)
      (by decide) (by decide) (by decide)).2.2.2⟩

end Pioneer
